import Mathlib

/-!
Verification development for the nexus content-ingestion pipeline.

Shallow embedding of the pipeline core:
* `tools/storage.py` — dedup store (`seen_hashes` table keyed by URL);
* `tools/rate_limiter.py` — sliding-window rate limiter;
* `tools/database.py` — embedded SQLite writer (videos/articles/logs);
* `tools/notion.py` — hosted-API writer (query-then-create upserts);
* `tools/ingest_youtube.py` — batch orchestrator and its cleanup block.

Mutable state is threaded explicitly; SQLite tables become Lean lists of
row structures; fallible operations return `Except`; remote/side effects
become explicit event traces.
-/

namespace Nexus



/-! ## Dedup store (`tools/storage.py`)

The `seen_hashes` table has `url TEXT PRIMARY KEY, content_hash TEXT NOT NULL`;
the primary key keeps at most one row per URL, so the table is modelled as an
association list from URL to hash in which `mark_processed` replaces in place.
-/

/-- The `seen_hashes` table: one `(url, content_hash)` row per URL. -/
abbrev DedupStore := List (String × String)

/-- `get_stored_hash(url)`: `SELECT content_hash FROM seen_hashes WHERE url = ?`. -/
def get_stored_hash (db : DedupStore) (url : String) : Option String :=
  (db.find? (fun r => r.1 = url)).map (fun r => r.2)

/-- `has_changed(url, new_hash)`: `old != new_hash` where `old` is the stored
hash or `None` when the URL is absent. -/
def has_changed (db : DedupStore) (url newHash : String) : Bool :=
  get_stored_hash db url ≠ some newHash

/-- `mark_processed(url, content_hash)`:
`INSERT ... ON CONFLICT(url) DO UPDATE SET content_hash=excluded.content_hash`.
The primary key on `url` means the row for `url`, if present, is overwritten in
place; otherwise a fresh row is appended. -/
def mark_processed : DedupStore → String → String → DedupStore
  | [], url, h => [(url, h)]
  | r :: tl, url, h => if r.1 = url then (url, h) :: tl else r :: mark_processed tl url h

/-! ## Rate limiter (`tools/rate_limiter.py`)

`RateLimiter(rate, period)` keeps `self.tokens`, a list of monotonic-clock
timestamps of recent grants.  `acquire` prunes timestamps older than `period`,
sleeps `period - (now - tokens[0])` when the retained count is at `rate`
(re-pruning after the sleep), then appends the current time.  Timestamps are
modelled as rationals; `asyncio.sleep(s)` advances the monotonic clock by `s`.
The surrounding `asyncio.Semaphore(rate)` bounds concurrent entries and is
invisible to the sequential call semantics modelled here (with `rate = 0` the
semaphore would block `acquire` forever, so calls are modelled for
`1 ≤ rate`). -/

structure RateLimiterState where
  tokens : List ℚ
  deriving DecidableEq, Repr

/-- Drop timestamps older than `period`: `[t for t in tokens if now - t < period]`. -/
def pruneTokens (period now : ℚ) (toks : List ℚ) : List ℚ :=
  toks.filter (fun t => now - t < period)

/-- Result of one `acquire()` call: the monotonic time at which the call
returns, and the limiter state it leaves behind. -/
structure AcquireResult where
  finishTime : ℚ
  state : RateLimiterState
  deriving DecidableEq, Repr

/-- `RateLimiter.acquire` from `tools/rate_limiter.py`, lines 28-46. -/
def acquire (rate : ℕ) (period now : ℚ) (st : RateLimiterState) : AcquireResult :=
  let toks := pruneTokens period now st.tokens
  if rate ≤ toks.length then
    let sleepTime := period - (now - toks.headD 0)
    if 0 < sleepTime then
      let now2 := now + sleepTime
      let toks2 := pruneTokens period now2 toks
      ⟨now2, ⟨toks2 ++ [now2]⟩⟩
    else ⟨now, ⟨toks ++ [now]⟩⟩
  else ⟨now, ⟨toks ++ [now]⟩⟩

/-- Modelled from the spec (§4.2 algorithm): on acquire, drop timestamps older
than `period`; if the retained count is already at `rate`, wait
`period − (now − oldest_retained)`, then re-prune; finally append `now`.
The retained sequence is kept in grant order (oldest first), so
`oldest_retained` is its head. -/
def acquireSpecModel (rate : ℕ) (period now : ℚ) (st : RateLimiterState) : AcquireResult :=
  let toks := pruneTokens period now st.tokens
  if rate ≤ toks.length then
    let wait := period - (now - toks.headD 0)
    let now2 := now + wait
    ⟨now2, ⟨pruneTokens period now2 toks ++ [now2]⟩⟩
  else ⟨now, ⟨toks ++ [now]⟩⟩

/-- Well-formedness of a limiter state as maintained by sequential calls:
no more than `rate` recorded grants, timestamps in grant order, and none in
the future of the clock `now`. -/
def RLGood (rate : ℕ) (now : ℚ) (st : RateLimiterState) : Prop :=
  st.tokens.length ≤ rate ∧ st.tokens.Sorted (· ≤ ·) ∧ ∀ t ∈ st.tokens, t ≤ now

/-- Number of recorded grant timestamps lying within the last `period` at
time `now`. -/
def grantsWithin (period now : ℚ) (st : RateLimiterState) : ℕ :=
  (st.tokens.filter (fun t => now - t < period)).length

/-- A sequence of `acquire()` calls on one limiter: the i-th call observes the
monotonic clock `di` after the point where the previous call returned
(`time.monotonic` never decreases, hence `0 ≤ di`). -/
def runAcquires (rate : ℕ) (period : ℚ) : List ℚ → ℚ → RateLimiterState → ℚ × RateLimiterState
  | [], now, st => (now, st)
  | d :: ds, now, st =>
    let r := acquire rate period (now + d) st
    runAcquires rate period ds r.finishTime r.state

/-! ## Embedded writer (`tools/database.py`)

`DatabaseWriter` persists to SQLite tables `videos`, `articles` and
`ingestion_logs`.  A table is a list of row structures plus the
`AUTOINCREMENT` counter (SQLite starts it at 1).  `upsert_*` is the SQL
`INSERT ... ON CONFLICT(url) DO UPDATE ... RETURNING id` from lines 200-216
and 244-260: on conflict every mutable column of the conflicting row is
overwritten and the `id` is untouched; otherwise a fresh row is appended with
the next id.  The `created_at`/`updated_at` columns both take the call-time
timestamp `now` (`datetime('now')` default and the bound `now` parameter). -/

structure VideoRow where
  id : ℕ
  url : String
  title : String
  thumbnail_url : String
  summary : String
  source : String
  published_at : Option String
  last_updated_at : Option String
  created_at : String
  updated_at : String
  deriving DecidableEq, Repr

structure ArticleRow where
  id : ℕ
  url : String
  title : String
  summary : String
  body : String
  source : String
  published_at : Option String
  last_updated_at : Option String
  created_at : String
  updated_at : String
  deriving DecidableEq, Repr

structure VideosTable where
  rows : List VideoRow
  nextId : ℕ
  deriving DecidableEq, Repr

structure ArticlesTable where
  rows : List ArticleRow
  nextId : ℕ
  deriving DecidableEq, Repr

def VideosTable.empty : VideosTable := ⟨[], 1⟩

def ArticlesTable.empty : ArticlesTable := ⟨[], 1⟩

/-- `DatabaseWriter.upsert_video` (`tools/database.py`, lines 174-216). -/
def upsert_video (tbl : VideosTable) (title url : String) (summary thumbnail source : String)
    (published_iso last_updated_iso : Option String) (now : String) : String × VideosTable :=
  match tbl.rows.find? (fun r => r.url = url) with
  | some r =>
    (toString r.id,
     ⟨tbl.rows.map (fun s => if s.url = url then
        { s with
          title := title
          thumbnail_url := thumbnail
          summary := summary
          source := source
          published_at := published_iso
          last_updated_at := last_updated_iso
          updated_at := now }
      else s),
      tbl.nextId⟩)
  | none =>
    (toString tbl.nextId,
     ⟨tbl.rows ++ [{
        id := tbl.nextId
        url := url
        title := title
        thumbnail_url := thumbnail
        summary := summary
        source := source
        published_at := published_iso
        last_updated_at := last_updated_iso
        created_at := now
        updated_at := now }],
      tbl.nextId + 1⟩)

/-- `DatabaseWriter.upsert_article` (`tools/database.py`, lines 218-260). -/
def upsert_article (tbl : ArticlesTable) (title url : String) (summary body source : String)
    (published_iso last_updated_iso : Option String) (now : String) : String × ArticlesTable :=
  match tbl.rows.find? (fun r => r.url = url) with
  | some r =>
    (toString r.id,
     ⟨tbl.rows.map (fun s => if s.url = url then
        { s with
          title := title
          summary := summary
          body := body
          source := source
          published_at := published_iso
          last_updated_at := last_updated_iso
          updated_at := now }
      else s),
      tbl.nextId⟩)
  | none =>
    (toString tbl.nextId,
     ⟨tbl.rows ++ [{
        id := tbl.nextId
        url := url
        title := title
        summary := summary
        body := body
        source := source
        published_at := published_iso
        last_updated_at := last_updated_iso
        created_at := now
        updated_at := now }],
      tbl.nextId + 1⟩)

/-- The `UNIQUE` constraint on `url`: pairwise-distinct keys. -/
def UniqueKeys {α : Type} (key : α → String) (l : List α) : Prop :=
  l.Pairwise (fun a b => key a ≠ key b)

/-! ### Call replay for the embedded upserts -/

structure VideoCall where
  title : String
  url : String
  summary : String
  thumbnail : String
  source : String
  published_iso : Option String
  last_updated_iso : Option String
  now : String
  deriving DecidableEq, Repr

structure ArticleCall where
  title : String
  url : String
  summary : String
  body : String
  source : String
  published_iso : Option String
  last_updated_iso : Option String
  now : String
  deriving DecidableEq, Repr

def applyVideoCall (tbl : VideosTable) (c : VideoCall) : VideosTable :=
  (upsert_video tbl c.title c.url c.summary c.thumbnail c.source
    c.published_iso c.last_updated_iso c.now).2

def applyVideoCalls (cs : List VideoCall) : VideosTable :=
  cs.foldl applyVideoCall VideosTable.empty

def applyArticleCall (tbl : ArticlesTable) (c : ArticleCall) : ArticlesTable :=
  (upsert_article tbl c.title c.url c.summary c.body c.source
    c.published_iso c.last_updated_iso c.now).2

def applyArticleCalls (cs : List ArticleCall) : ArticlesTable :=
  cs.foldl applyArticleCall ArticlesTable.empty

/-- N successive `upsert_video` calls to the same URL, varying only the title. -/
def upsertTitles (url : String) (ts : List String) (tbl : VideosTable) : VideosTable :=
  ts.foldl (fun t title => (upsert_video t title url "" "" "" none none "").2) tbl

/-! ### Embedded log table (`_create_tables` lines 148-159, `log_event` lines 262-294) -/

def validActions : List String := ["discover", "fetch", "summarize", "write"]

def validResults : List String := ["ok", "skip", "error"]

structure LogRow where
  id : ℕ
  time : String
  item_url : String
  action : String
  result : String
  message : String
  deriving DecidableEq, Repr

structure LogTable where
  rows : List LogRow
  nextId : ℕ
  deriving DecidableEq, Repr

def LogTable.empty : LogTable := ⟨[], 1⟩

/-- `DatabaseWriter.log_event`: `when_iso` defaults to the current UTC time when
falsy (`None` or `""`); the INSERT is subject to the CHECK constraints
`action_valid` and `result_valid`, so an out-of-enumeration value raises an
integrity error and stores nothing. -/
def log_event (tbl : LogTable) (item_url action result message : String)
    (when_iso : Option String) (now : String) : Except String (String × LogTable) :=
  let t := match when_iso with
    | none => now
    | some s => if s = "" then now else s
  if action ∈ validActions ∧ result ∈ validResults then
    .ok (toString tbl.nextId,
      ⟨tbl.rows ++ [⟨tbl.nextId, t, item_url, action, result, message⟩], tbl.nextId + 1⟩)
  else
    .error "IntegrityError: CHECK constraint failed"

/-! ### Embedded read paths (`get_recent_videos` lines 298-326, `search_videos`
lines 358-389)

Result rows are Python dicts with a fixed key set; a dict is modelled as an
ordered key/value list.  `ORDER BY published_at DESC` follows SQLite ordering
on a nullable TEXT column: `NULL` sorts below every string, so `DESC` puts
`NULL` last.  The `videos_fts` index is external-content (`content=videos`)
state of its own (the code never syncs it on upsert; tests rebuild it
explicitly), modelled as a match-score assignment per (query, rowid); `ORDER
BY rank` sorts matches by that score ascending (fts5's bm25 rank, smaller =
better). -/

inductive SqlValue
  | int (n : ℕ)
  | text (s : String)
  | null
  deriving DecidableEq, Repr

def optText : Option String → SqlValue
  | none => .null
  | some s => .text s

def videoDict (r : VideoRow) : List (String × SqlValue) :=
  [("id", .int r.id), ("url", .text r.url), ("title", .text r.title),
   ("thumbnail_url", .text r.thumbnail_url), ("summary", .text r.summary),
   ("source", .text r.source), ("published_at", optText r.published_at),
   ("updated_at", .text r.updated_at)]

/-- Lexicographic order on character lists: SQLite BINARY collation on UTF-8
encoded text coincides with code-point lexicographic order. -/
def listLeChar : List Char → List Char → Bool
  | [], _ => true
  | _ :: _, [] => false
  | a :: as, b :: bs =>
    if a < b then true
    else if a = b then listLeChar as bs
    else false

def strLe (a b : String) : Prop := listLeChar a.data b.data = true

instance (a b : String) : Decidable (strLe a b) :=
  inferInstanceAs (Decidable (_ = true))

/-- SQLite comparison on the nullable TEXT column `published_at`:
`NULL` is smaller than every string. -/
def pubLe : Option String → Option String → Prop
  | none, _ => True
  | some _, none => False
  | some a, some b => strLe a b

instance : ∀ x y, Decidable (pubLe x y)
  | none, _ => isTrue trivial
  | some _, none => isFalse (fun h => h)
  | some a, some b => inferInstanceAs (Decidable (strLe a b))

/-- `ORDER BY published_at DESC`: `a` comes no later than `b` when `b`'s
publish time is at most `a`'s. -/
def recentVideoLE (a b : VideoRow) : Prop := pubLe b.published_at a.published_at

instance : DecidableRel recentVideoLE := fun a b =>
  inferInstanceAs (Decidable (pubLe b.published_at a.published_at))

def get_recent_videos (tbl : VideosTable) (limit : ℕ) : List (List (String × SqlValue)) :=
  ((List.insertionSort recentVideoLE tbl.rows).take limit).map videoDict

/-- The `videos_fts` shadow index: the bm25 match score the storage engine
assigns to a query for an indexed rowid (`none` when the row does not match or
is not in the index). -/
structure VideosFts where
  score : String → ℕ → Option ℚ

/-- `ORDER BY rank`: ascending bm25 score. -/
def rankLE (a b : VideoRow × ℚ) : Prop := a.2 ≤ b.2

instance : DecidableRel rankLE := fun a b => inferInstanceAs (Decidable (a.2 ≤ b.2))

def search_videos (tbl : VideosTable) (fts : VideosFts) (query : String) (limit : ℕ) :
    List (List (String × SqlValue)) :=
  let matched := tbl.rows.filterMap (fun r =>
    match fts.score query r.id with
    | some s => some (r, s)
    | none => none)
  ((List.insertionSort rankLE matched).take limit).map (fun p => videoDict p.1)

/-- The publish timestamp carried by a result dict (`null` ↦ absent). -/
def dictPub (d : List (String × SqlValue)) : Option String :=
  match d.lookup "published_at" with
  | some (.text s) => some s
  | _ => none

def dictKeys (d : List (String × SqlValue)) : List String := d.map (fun kv => kv.1)

def videoDictKeys : List String :=
  ["id", "url", "title", "thumbnail_url", "summary", "source", "published_at", "updated_at"]

/-! ## Hosted-API writer (`tools/notion.py`)

`NotionWriter` holds a `notion_client.Client` and remote database ids.  Each
method issues remote calls directly on `self.client`; the class has no lock
and never touches `tools/rate_limiter.py` (which no module imports).  Remote
calls are recorded as an explicit trace.  The remote page id assigned by the
service to a created page is an input (`newPageId`).  Python truthiness:
`x if x else y` treats both `None` and `""` as missing. -/

/-- Python string slicing `s[:n]`: the first `n` characters. -/
def pyTake (s : String) (n : ℕ) : String := String.mk (s.data.take n)

inductive NotionCall
  | lockAcquire
  | limiterAcquire
  | databaseQuery (db url : String)
  | pageUpdate (pageId : String)
  | pageCreate (db : String)
  deriving DecidableEq, Repr

def isRemoteCall : NotionCall → Bool
  | .databaseQuery _ _ => true
  | .pageUpdate _ => true
  | .pageCreate _ => true
  | .lockAcquire => false
  | .limiterAcquire => false

/-- The claim's discipline for a hosted-writer operation: every remote call in
its trace is preceded by a rate-limiter `acquire` and happens under the
writer's mutual-exclusion lock. -/
def ThrottledSerialized (tr : List NotionCall) : Prop :=
  ∀ i : Fin tr.length, isRemoteCall (tr.get i) = true →
    (∃ j : Fin tr.length, j.val < i.val ∧ tr.get j = .limiterAcquire) ∧
    (∃ j : Fin tr.length, j.val < i.val ∧ tr.get j = .lockAcquire)

instance (tr : List NotionCall) : Decidable (ThrottledSerialized tr) := by
  unfold ThrottledSerialized
  infer_instance

/-- `None`/`""` are falsy: `{"date": {"start": p}} if p else {"date": None}`. -/
def pyOptStr : Option String → Option String
  | none => none
  | some s => if s = "" then none else some s

/-- The property payload `NotionWriter.upsert_video` writes (lines 158-166):
title truncated to 200 characters, rich-text fields to 2000/200. -/
structure NotionVideoProps where
  name : String
  link : String
  thumbnail : Option String
  summaryText : String
  sourceText : String
  published : Option String
  lastUpdated : Option String
  deriving DecidableEq, Repr

def notionVideoProps (title url summary thumbnail source : String)
    (published_iso last_updated_iso : Option String) : NotionVideoProps :=
  { name := pyTake title 200
    link := url
    thumbnail := if thumbnail = "" then none else some thumbnail
    summaryText := if summary = "" then "" else pyTake summary 2000
    sourceText := if source = "" then "" else source.take 200
    published := pyOptStr published_iso
    lastUpdated := pyOptStr last_updated_iso }

/-- The property payload `NotionWriter.upsert_article` writes (lines 190-198). -/
structure NotionArticleProps where
  name : String
  link : String
  summaryText : String
  bodyText : String
  sourceText : String
  published : Option String
  lastUpdated : Option String
  deriving DecidableEq, Repr

def notionArticleProps (title url summary body source : String)
    (published_iso last_updated_iso : Option String) : NotionArticleProps :=
  { name := pyTake title 200
    link := url
    summaryText := if summary = "" then "" else pyTake summary 2000
    bodyText := if body = "" then "" else pyTake body 2000
    sourceText := if source = "" then "" else source.take 200
    published := pyOptStr published_iso
    lastUpdated := pyOptStr last_updated_iso }

structure NotionVideoPage where
  pageId : String
  props : NotionVideoProps
  deriving DecidableEq, Repr

/-- `NotionWriter._find_page_by_link` (lines 125-143): query the collection for
`Link == url` with `page_size=1`; first hit's id or `None`. -/
def notion_find_page_by_link (pages : List NotionVideoPage) (url : String) : Option String :=
  (pages.find? (fun p => p.props.link = url)).map (fun p => p.pageId)

/-- `NotionWriter.upsert_video` (lines 145-175): query by Link, then update the
found page or create a new one — two remote calls, no lock, no limiter. -/
def notion_upsert_video (dbId : String) (pages : List NotionVideoPage) (newPageId : String)
    (title url summary thumbnail source : String)
    (published_iso last_updated_iso : Option String) :
    String × List NotionVideoPage × List NotionCall :=
  let props := notionVideoProps title url summary thumbnail source published_iso last_updated_iso
  match notion_find_page_by_link pages url with
  | some pid =>
    (pid,
     pages.map (fun p => if p.pageId = pid then { p with props := props } else p),
     [.databaseQuery dbId url, .pageUpdate pid])
  | none =>
    (newPageId,
     pages ++ [⟨newPageId, props⟩],
     [.databaseQuery dbId url, .pageCreate dbId])

/-- A page of the hosted log collection: the properties
`NotionWriter.log_event` writes (lines 263-279). -/
structure NotionLogPage where
  pageId : String
  name : String
  time : String
  itemUrl : String
  action : String
  result : String
  message : String
  deriving DecidableEq, Repr

/-- `NotionWriter.log_event`: builds the page properties — including the
`action`/`result` select values taken verbatim, with no membership check
against any enumeration — and unconditionally issues one `pages.create`. -/
def notion_log_event (logDbId : String) (pages : List NotionLogPage) (newPageId : String)
    (item_url action result message : String) (when_iso : Option String) (now : String) :
    String × List NotionLogPage × List NotionCall :=
  let t := match when_iso with
    | none => now
    | some s => if s = "" then now else s
  let page : NotionLogPage :=
    { pageId := newPageId
      name := pyTake (action ++ " | " ++ result) 100
      time := t
      itemUrl := item_url
      action := action
      result := result
      message := message }
  (newPageId, pages ++ [page], [.pageCreate logDbId])

/-! ## Batch orchestrator (`tools/ingest_youtube.py`)

`ingest_youtube` builds one task per discovered video, admits them through
`asyncio.Semaphore(max(1, workers))`, and awaits
`asyncio.gather(*tasks, return_exceptions=True)`: every task runs to
completion regardless of other tasks' outcomes (nothing is cancelled before
the gather returns), and the results come back in task-creation order.  It
then scans the results, keeping the first `FatalIngestionError`
(`first_fatal = first_fatal or result`) and counting truthy results, and
raises the first fatal if any; otherwise it returns the count.

Each item's external collaborators (transcript fetch, summarizer, writer
upsert) are inputs recorded on the item; writer/log/dedup side effects become
an event trace.  The batch is modelled by running the items in task order —
faithful for the effect set and the result list because no task's execution
is suppressed by another task's failure. -/

inductive FetchOutcome
  | ok (transcript : String)
  | raiseExc (excType msg : String)
  deriving DecidableEq, Repr

inductive SummarizeOutcome
  | ok (tldr : String) (takeaways keyQuotes : List String)
  | raiseExc (msg : String)
  deriving DecidableEq, Repr

/-- A discovered `VideoItem` together with the behaviour its external
collaborators exhibit for it during this batch. -/
structure ItemRun where
  url : String
  title : String
  channel : Option String
  video_id : String
  published_iso : Option String
  fetch : FetchOutcome
  summarize : SummarizeOutcome
  writeOk : Bool
  writeErrMsg : String
  deriving DecidableEq, Repr

/-- Python `needle in haystack` on strings. -/
def listContainsSub (haystack needle : List Char) : Bool :=
  match haystack with
  | [] => needle.isEmpty
  | _ :: t => needle.isPrefixOf haystack || listContainsSub t needle

def strContains (s pat : String) : Bool := listContainsSub s.data pat.data

/-- The blocked-transcript detection of `_process_video` (lines 199-205). -/
def is_blocked (excType msg : String) : Bool :=
  excType = "IpBlocked" || strContains msg "429" ||
    strContains msg.toLower "rate limit" || strContains msg.toLower "blocking"

/-- The combined summary text built on lines 241-246. -/
def buildSummaryText (tldr : String) (takeaways keyQuotes : List String) : String :=
  let parts := ["TL;DR: " ++ tldr, "", "Takeaways:"] ++
    takeaways.map (fun t => "- " ++ t) ++
    (if keyQuotes = [] then []
     else ["", "Key Quotes:"] ++ keyQuotes.map (fun q => "- " ++ q))
  String.intercalate "\n" parts

inductive PipeEvent
  | logEvent (url action result message : String)
  | upsertVideo (title url summary thumbnail source : String)
      (published_iso : Option String) (last_updated_iso : String)
  | markProcessed (url h : String)
  deriving DecidableEq, Repr

structure PipeState where
  dedup : DedupStore
  events : List PipeEvent
  deriving DecidableEq, Repr

def pushEvent (st : PipeState) (e : PipeEvent) : PipeState :=
  { st with events := st.events ++ [e] }

inductive ProcessResult
  | fatalErr (msg : String)
  | finished (success : Bool)
  deriving DecidableEq, Repr

/-- The summarize stage of `_process_video` (lines 234-258): an LLM summary
with an ok log on success, the truncated transcript with an error log as the
soft fallback.  Returns the summary text and the log event to emit. -/
def summarizeStep (item : ItemRun) (transcript : String) : String × PipeEvent :=
  match item.summarize with
  | .ok tldr tk qs =>
    (buildSummaryText tldr tk qs,
     .logEvent item.url "summarize" "ok" "LLM summary generated")
  | .raiseExc e =>
    (pyTake transcript 2000, .logEvent item.url "summarize" "error" e)

/-- `_process_video` (lines 179-300): fetch → blocked check → dedup check →
summarize (with truncated-transcript fallback) → upsert + write log +
mark-processed.  `hash` is `tools/utils.content_hash` (a sha256 prefix; the
digest algorithm is not part of any contract, so it is a parameter). -/
def process_video (hash : String → String) (now : String) (item : ItemRun)
    (st : PipeState) : ProcessResult × PipeState :=
  match item.fetch with
  | .raiseExc ty msg =>
    let st1 := pushEvent st (.logEvent item.url "fetch" "error" msg)
    if is_blocked ty msg then
      (.fatalErr ("Transcript API blocked: " ++ msg), st1)
    else
      (.finished false, st1)
  | .ok transcript =>
    let h := hash transcript
    if has_changed st.dedup item.url h = false then
      (.finished false, pushEvent st (.logEvent item.url "fetch" "skip" "unchanged"))
    else
      let sm := summarizeStep item transcript
      let summary_text := sm.1
      let st1 := pushEvent st sm.2
      let thumbnail := if item.video_id = "" then ""
        else "https://i.ytimg.com/vi/" ++ item.video_id ++ "/maxresdefault.jpg"
      if item.writeOk then
        let st2 := pushEvent st1 (.upsertVideo item.title item.url summary_text thumbnail
          (item.channel.getD "") item.published_iso now)
        let st3 := pushEvent st2 (.logEvent item.url "write" "ok" "video upserted")
        let st4 := { st3 with dedup := mark_processed st3.dedup item.url h }
        (.finished true, st4)
      else
        (.finished false, pushEvent st1 (.logEvent item.url "write" "error" item.writeErrMsg))

/-- Run every task to completion in task-creation order (the semantics of
`asyncio.gather(..., return_exceptions=True)` over the per-item tasks). -/
def ingest_results (hash : String → String) (now : String) :
    List ItemRun → PipeState → List ProcessResult × PipeState
  | [], st => ([], st)
  | it :: rest, st =>
    let step := process_video hash now it st
    let tail := ingest_results hash now rest step.2
    (step.1 :: tail.1, tail.2)

inductive BatchOutcome
  | fatalErr (msg : String)
  | count (n : ℕ)
  deriving DecidableEq, Repr

/-- The result scan of `ingest_youtube` lines 79-92: the first
`FatalIngestionError` in result order wins. -/
def firstFatal : List ProcessResult → Option String
  | [] => none
  | .fatalErr m :: _ => some m
  | .finished _ :: rest => firstFatal rest

def countSuccess (rs : List ProcessResult) : ℕ :=
  rs.countP (fun r => r = .finished true)

/-- `ingest_youtube` batch semantics (lines 68-97): gather all item tasks,
raise the first fatal error if any, otherwise return the success count. -/
def ingest_youtube_batch (hash : String → String) (now : String) (items : List ItemRun)
    (st : PipeState) : BatchOutcome × PipeState :=
  let run := ingest_results hash now items st
  match firstFatal run.1 with
  | some m => (.fatalErr m, run.2)
  | none => (.count (countSuccess run.1), run.2)

/-- The admission gate of line 70: `asyncio.Semaphore(max(1, workers))`. -/
def effectiveWorkers (workers : ℤ) : ℤ := max 1 workers

/-- Does some event in the trace upsert (reach the write stage for) `url`? -/
def eventWritesUrl (url : String) : PipeEvent → Bool
  | .upsertVideo _ u _ _ _ _ _ => u = url
  | _ => false

/-- The fatal condition an item's fetch produces, if any: fetch raised and the
error was classified as blocked. -/
def itemFatal (item : ItemRun) : Option String :=
  match item.fetch with
  | .raiseExc ty msg =>
    if is_blocked ty msg then some ("Transcript API blocked: " ++ msg) else none
  | .ok _ => none

/-! ## Orchestrator cleanup (`ingest_youtube` lines 98-130)

The `finally` block: close the summarizer client, close the dedup-store
connection, sleep briefly, cancel and await leftover tasks (via
`gather(..., return_exceptions=True)`, which cannot raise), shut down the
collector's thread pool, and shut down the default executor — only this last
step is wrapped in `try/except`.  A failure in any earlier step propagates
out of the `finally` block (replacing the in-flight result or exception) and
skips the remaining steps. -/

structure CleanupEnv where
  summarizerCloseFails : Bool
  dbCloseFails : Bool
  collectorShutdownFails : Bool
  defaultExecShutdownFails : Bool
  deriving DecidableEq, Repr

inductive CleanupStep
  | closeSummarizer
  | closeDb
  | cancelPendingTasks
  | shutdownCollectorPool
  | shutdownDefaultPool
  deriving DecidableEq, Repr

/-- Resources owned by one batch invocation: the summarizer's HTTP client and
the module-level dedup-store connection (`storage._db_connection`). -/
structure Resources where
  summarizerClientOpen : Bool
  dedupConnOpen : Bool
  deriving DecidableEq, Repr

/-- The cleanup block, step by step.  `summarizer.close` and `close_db` both
guard on the handle being present and null it out, so re-running them is a
no-op at the resource level. -/
def runCleanup (env : CleanupEnv) (r : Resources) :
    List CleanupStep × Resources × Option String :=
  if env.summarizerCloseFails then
    ([], r, some "summarizer close failed")
  else
    let r1 : Resources := { r with summarizerClientOpen := false }
    if env.dbCloseFails then
      ([.closeSummarizer], r1, some "dedup store close failed")
    else
      let r2 : Resources := { r1 with dedupConnOpen := false }
      if env.collectorShutdownFails then
        ([.closeSummarizer, .closeDb, .cancelPendingTasks], r2,
         some "collector executor shutdown failed")
      else
        ([.closeSummarizer, .closeDb, .cancelPendingTasks, .shutdownCollectorPool,
          .shutdownDefaultPool], r2, none)

/-- `try: <batch> finally: <cleanup>`: the cleanup block runs on the return
path and on the raise path alike; an exception escaping the `finally` block
replaces the in-flight outcome.  `.inl` is a normal return, `.inr` a raised
exception. -/
def ingest_with_cleanup (body : BatchOutcome ⊕ String) (env : CleanupEnv) (r : Resources) :
    (BatchOutcome ⊕ String) × List CleanupStep × Resources :=
  let c := runCleanup env r
  match c.2.2 with
  | some e => (.inr e, c.1, c.2.1)
  | none => (body, c.1, c.2.1)

/-- Table and match-score state for concrete read-path checks: two rows where
the better-matching row is the older one. -/
def c8Rows : List VideoRow :=
  [{ id := 1
     url := "https://x/a"
     title := "A"
     thumbnail_url := ""
     summary := ""
     source := ""
     published_at := some "2024-03-01"
     last_updated_at := none
     created_at := ""
     updated_at := "" },
   { id := 2
     url := "https://x/b"
     title := "B"
     thumbnail_url := ""
     summary := ""
     source := ""
     published_at := some "2024-01-01"
     last_updated_at := none
     created_at := ""
     updated_at := "" }]

def c8Table : VideosTable := ⟨c8Rows, 3⟩

/-- Both rows match query `"q"`; the bm25 rank of the older row (id 2) is
better (smaller). -/
def c8Fts : VideosFts :=
  ⟨fun q rowid =>
    if q = "q" then
      if rowid = 1 then some (-1) else if rowid = 2 then some (-2) else none
    else none⟩

/-- Five discovered videos for the fatal-short-circuit scenario: item 3's
transcript fetch raises a 429 (blocked), the others fetch fine; the
summarizer is down (soft fallback) and writes succeed. -/
def c1Item (u t : String) (f : FetchOutcome) : ItemRun :=
  { url := u
    title := t
    channel := some "ch"
    video_id := "vid"
    published_iso := none
    fetch := f
    summarize := .raiseExc "llm down"
    writeOk := true
    writeErrMsg := "" }

def c1Items : List ItemRun :=
  [c1Item "https://x/1" "v1" (.ok "t1"),
   c1Item "https://x/2" "v2" (.ok "t2"),
   c1Item "https://x/3" "v3" (.raiseExc "RuntimeError" "429 Too Many Requests"),
   c1Item "https://x/4" "v4" (.ok "t4"),
   c1Item "https://x/5" "v5" (.ok "t5")]

theorem get_stored_hash_mark_processed (db : DedupStore) (url h u : String) :
    get_stored_hash (mark_processed db url h) u =
      if u = url then some h else get_stored_hash db u := by
  induction db with
  | nil =>
    by_cases hu : u = url
    · subst hu
      simp [mark_processed, get_stored_hash, List.find?]
    · have hne : ¬ url = u := fun hc => hu hc.symm
      simp [mark_processed, get_stored_hash, List.find?, hu, hne]
  | cons a tl ih =>
    by_cases ha : a.1 = url
    · simp only [mark_processed, if_pos ha]
      by_cases hu : u = url
      · subst hu
        simp [get_stored_hash, List.find?]
      · unfold get_stored_hash
        have h1 : ¬ ((url, h) : String × String).1 = u := fun hc => hu hc.symm
        have h2 : ¬ a.1 = u := fun hc => hu (hc ▸ ha)
        rw [List.find?_cons_of_neg _ (by simpa using h1),
          List.find?_cons_of_neg _ (by simpa using h2)]
        simp [hu]
    · simp only [mark_processed, if_neg ha]
      by_cases hau : a.1 = u
      · unfold get_stored_hash
        rw [List.find?_cons_of_pos _ (by simp [hau]),
          List.find?_cons_of_pos _ (by simp [hau])]
        have hne : ¬ u = url := fun hc => ha (hau.trans hc)
        simp [hne]
      · unfold get_stored_hash
        rw [List.find?_cons_of_neg _ (by simp [hau]),
          List.find?_cons_of_neg _ (by simp [hau])]
        exact ih

theorem length_filter_lt_of_mem_false {α : Type} (p : α → Bool) {l : List α} {x : α}
    (hx : x ∈ l) (hp : p x = false) : (l.filter p).length < l.length := by
  induction l with
  | nil => cases hx
  | cons a tl ih =>
    rcases List.mem_cons.mp hx with rfl | hmem
    · rw [List.filter_cons_of_neg (by simp [hp])]
      exact Nat.lt_succ_of_le (List.length_filter_le _ _)
    · by_cases ha : p a
      · rw [List.filter_cons_of_pos ha]
        simpa using Nat.succ_lt_succ (ih hmem)
      · rw [List.filter_cons_of_neg (by simpa using ha)]
        exact Nat.lt_succ_of_lt (ih hmem)

theorem acquire_step (rate : ℕ) (period now : ℚ) (st : RateLimiterState)
    (hrate : 1 ≤ rate) (hper : 0 < period) (hgood : RLGood rate now st) :
    acquire rate period now st = acquireSpecModel rate period now st ∧
    now ≤ (acquire rate period now st).finishTime ∧
    RLGood rate (acquire rate period now st).finishTime (acquire rate period now st).state ∧
    grantsWithin period (acquire rate period now st).finishTime
      (acquire rate period now st).state ≤ rate := by
  obtain ⟨hlen, hsort, hub⟩ := hgood
  have hsub : ∀ t ∈ pruneTokens period now st.tokens, t ∈ st.tokens ∧ now - t < period := by
    intro t ht
    have := List.mem_filter.mp ht
    exact ⟨this.1, by simpa using this.2⟩
  have hprunelen : (pruneTokens period now st.tokens).length ≤ rate :=
    le_trans (List.length_filter_le _ _) hlen
  have hprunesort : (pruneTokens period now st.tokens).Sorted (· ≤ ·) :=
    hsort.filter _
  by_cases hfull : rate ≤ (pruneTokens period now st.tokens).length
  · -- at the rate: the code sleeps, re-prunes, appends
    set toks := pruneTokens period now st.tokens with htoks
    have hne : toks ≠ [] := by
      intro hnil
      rw [hnil] at hfull
      simp at hfull
      omega
    obtain ⟨h0, trest, hcons⟩ : ∃ h0 trest, toks = h0 :: trest := by
      cases hc : toks with
      | nil => exact absurd hc hne
      | cons a b => exact ⟨a, b, rfl⟩
    have hheadD : toks.headD 0 = h0 := by rw [hcons]; rfl
    have hh0mem : h0 ∈ toks := by rw [hcons]; exact List.mem_cons_self _ _
    have hh0 : now - h0 < period := (hsub h0 hh0mem).2
    have hsleep : 0 < period - (now - h0) := by linarith
    have hnow2 : now + (period - (now - toks.headD 0)) = h0 + period := by
      rw [hheadD]; ring
    -- the code's `if sleep_time > 0` guard is true, so code = spec model here
    have heq : acquire rate period now st = acquireSpecModel rate period now st := by
      unfold acquire acquireSpecModel
      rw [← htoks]
      rw [if_pos hfull, if_pos hfull, if_pos (by rw [hheadD]; exact hsleep)]
    set now2 := now + (period - (now - toks.headD 0)) with hnow2def
    have hnow2eq : now2 = h0 + period := hnow2
    have hres : acquire rate period now st =
        ⟨now2, ⟨pruneTokens period now2 toks ++ [now2]⟩⟩ := by
      unfold acquire
      rw [← htoks, if_pos hfull, if_pos (by rw [hheadD]; exact hsleep)]
    have hnowle : now ≤ now2 := by
      rw [hnow2def]; linarith
    -- after the re-prune the head h0 is gone, so at most rate - 1 remain
    have hdrop : (pruneTokens period now2 toks).length < toks.length := by
      apply length_filter_lt_of_mem_false _ hh0mem
      simp only [decide_eq_false_iff_not, not_lt]
      rw [hnow2eq]; linarith
    have hlen2 : (pruneTokens period now2 toks).length + 1 ≤ rate := by
      have : toks.length ≤ rate := hprunelen
      omega
    have hsub2 : ∀ t ∈ pruneTokens period now2 toks, t ∈ toks ∧ now2 - t < period := by
      intro t ht
      have := List.mem_filter.mp ht
      exact ⟨this.1, by simpa using this.2⟩
    refine ⟨heq, ?_, ⟨?_, ?_, ?_⟩, ?_⟩
    · rw [hres]; exact hnowle
    · rw [hres]; simpa using hlen2
    · rw [hres]
      simp only [List.Sorted] at hprunesort ⊢
      rw [List.pairwise_append]
      refine ⟨hprunesort.filter _, List.pairwise_singleton _ _, ?_⟩
      intro a ha b hb
      rw [List.mem_singleton] at hb
      subst hb
      have hamem := (hsub2 a ha).1
      have hmem2 := (hsub a hamem).1
      have hale : a ≤ now := hub a hmem2
      linarith
    · rw [hres]
      intro t ht
      simp only [List.mem_append, List.mem_singleton] at ht
      rcases ht with ht | rfl
      · have hamem := (hsub2 t ht).1
        have hmem2 := (hsub t hamem).1
        have htle : t ≤ now := hub t hmem2
        linarith
      · exact le_refl _
    · rw [hres]
      unfold grantsWithin
      simp only
      have hall : ∀ t ∈ pruneTokens period now2 toks ++ [now2],
          (fun t => decide (now2 - t < period)) t = true := by
        intro t ht
        simp only [List.mem_append, List.mem_singleton] at ht
        rcases ht with ht | rfl
        · simpa using (hsub2 t ht).2
        · simpa using hper
      rw [List.filter_eq_self.mpr hall]
      simpa using hlen2
  · -- below the rate: prune and append
    have hres : acquire rate period now st =
        ⟨now, ⟨pruneTokens period now st.tokens ++ [now]⟩⟩ := by
      unfold acquire
      rw [if_neg hfull]
    have heq : acquire rate period now st = acquireSpecModel rate period now st := by
      unfold acquire acquireSpecModel
      rw [if_neg hfull, if_neg hfull]
    have hlt : (pruneTokens period now st.tokens).length < rate := by omega
    refine ⟨heq, ?_, ⟨?_, ?_, ?_⟩, ?_⟩
    · rw [hres]
    · rw [hres]; simpa using hlt
    · rw [hres]
      simp only [List.Sorted] at hprunesort ⊢
      rw [List.pairwise_append]
      refine ⟨hprunesort, List.pairwise_singleton _ _, ?_⟩
      intro a ha b hb
      rw [List.mem_singleton] at hb
      subst hb
      exact hub a (hsub a ha).1
    · rw [hres]
      intro t ht
      simp only [List.mem_append, List.mem_singleton] at ht
      rcases ht with ht | rfl
      · exact hub t (hsub t ht).1
      · exact le_refl _
    · rw [hres]
      unfold grantsWithin
      simp only
      have hall : ∀ t ∈ pruneTokens period now st.tokens ++ [now],
          (fun t => decide (now - t < period)) t = true := by
        intro t ht
        simp only [List.mem_append, List.mem_singleton] at ht
        rcases ht with ht | rfl
        · simpa using (hsub t ht).2
        · simpa using hper
      rw [List.filter_eq_self.mpr hall]
      simpa using hlt

theorem rlgood_mono (rate : ℕ) (now nowg : ℚ) (st : RateLimiterState)
    (h : RLGood rate now st) (hle : now ≤ nowg) : RLGood rate nowg st :=
  ⟨h.1, h.2.1, fun t ht => le_trans (h.2.2 t ht) hle⟩

theorem runAcquires_good (rate : ℕ) (period : ℚ) (hrate : 1 ≤ rate) (hper : 0 < period)
    (deltas : List ℚ) (now : ℚ) (st : RateLimiterState)
    (hd : ∀ d ∈ deltas, 0 ≤ d) (hgood : RLGood rate now st) :
    RLGood rate (runAcquires rate period deltas now st).1
      (runAcquires rate period deltas now st).2 ∧
    grantsWithin period (runAcquires rate period deltas now st).1
      (runAcquires rate period deltas now st).2 ≤ rate := by
  induction deltas generalizing now st with
  | nil =>
    refine ⟨hgood, ?_⟩
    unfold grantsWithin
    exact le_trans (List.length_filter_le _ _) hgood.1
  | cons d ds ih =>
    have hd0 : 0 ≤ d := hd d (List.mem_cons_self _ _)
    have hgood1 : RLGood rate (now + d) st := rlgood_mono _ _ _ _ hgood (by linarith)
    have hstep := acquire_step rate period (now + d) st hrate hper hgood1
    have hrec := ih (acquire rate period (now + d) st).finishTime
      (acquire rate period (now + d) st).state
      (fun x hx => hd x (List.mem_cons_of_mem _ hx)) hstep.2.2.1
    simpa [runAcquires] using hrec

theorem uniqueKeys_map {α : Type} (key : α → String) (f : α → α)
    (hf : ∀ a, key (f a) = key a) {l : List α} (h : UniqueKeys key l) :
    UniqueKeys key (l.map f) := by
  unfold UniqueKeys at h ⊢
  rw [List.pairwise_map]
  exact h.imp (fun hab => by rw [hf, hf]; exact hab)

theorem uniqueKeys_append_fresh {α : Type} (key : α → String) {l : List α} {x : α}
    (h : UniqueKeys key l) (hx : ∀ a ∈ l, key a ≠ key x) :
    UniqueKeys key (l ++ [x]) := by
  unfold UniqueKeys at h ⊢
  rw [List.pairwise_append]
  refine ⟨h, List.pairwise_singleton _ _, ?_⟩
  intro a ha b hb
  rw [List.mem_singleton] at hb
  subst hb
  exact hx a ha

theorem filter_key_map {α : Type} (key : α → String) (f : α → α)
    (hf : ∀ a, key (f a) = key a) (l : List α) (u : String) :
    (l.map f).filter (fun a => key a = u) = (l.filter (fun a => key a = u)).map f := by
  induction l with
  | nil => rfl
  | cons a tl ih =>
    by_cases ha : key a = u
    · rw [List.map_cons, List.filter_cons_of_pos (by simp [hf, ha]),
        List.filter_cons_of_pos (by simp [ha]), List.map_cons, ih]
    · rw [List.map_cons, List.filter_cons_of_neg (by simp [hf, ha]),
        List.filter_cons_of_neg (by simp [ha]), ih]

theorem find?_eq_head?_filter {α : Type} (p : α → Bool) (l : List α) :
    l.find? p = (l.filter p).head? := by
  induction l with
  | nil => rfl
  | cons a tl ih =>
    by_cases ha : p a
    · rw [List.find?_cons_of_pos _ ha, List.filter_cons_of_pos ha, List.head?_cons]
    · rw [List.find?_cons_of_neg _ (by simpa using ha),
        List.filter_cons_of_neg (by simpa using ha), ih]

theorem filter_eq_singleton_of_uniqueKeys {α : Type} (key : α → String) {l : List α}
    {u : String} {r : α} (huniq : UniqueKeys key l)
    (hfind : l.find? (fun a => key a = u) = some r) :
    l.filter (fun a => key a = u) = [r] := by
  induction l with
  | nil => cases hfind
  | cons a tl ih =>
    rcases List.pairwise_cons.mp huniq with ⟨hhead, htail⟩
    by_cases ha : key a = u
    · rw [List.find?_cons_of_pos _ (by simpa using ha)] at hfind
      injection hfind with hfind
      subst hfind
      rw [List.filter_cons_of_pos (by simpa using ha)]
      have hnil : tl.filter (fun b => key b = u) = [] := by
        rw [List.filter_eq_nil_iff]
        intro b hb
        simp only [decide_eq_true_eq]
        intro hbu
        exact hhead b hb (ha.trans hbu.symm)
      rw [hnil]
    · rw [List.find?_cons_of_neg _ (by simpa using ha)] at hfind
      rw [List.filter_cons_of_neg (by simpa using ha)]
      exact ih htail hfind

/-- The conflict-branch update of `upsert_video` touches only mutable columns:
`url` and `id` are preserved. -/
theorem upsert_video_updates_preserve (title url summary thumbnail source : String)
    (published_iso last_updated_iso : Option String) (now : String) (s : VideoRow) :
    ((fun s => if s.url = url then
        { s with
          title := title
          thumbnail_url := thumbnail
          summary := summary
          source := source
          published_at := published_iso
          last_updated_at := last_updated_iso
          updated_at := now }
      else s) s).url = s.url ∧
    ((fun s => if s.url = url then
        { s with
          title := title
          thumbnail_url := thumbnail
          summary := summary
          source := source
          published_at := published_iso
          last_updated_at := last_updated_iso
          updated_at := now }
      else s) s).id = s.id := by
  by_cases h : s.url = url <;> simp [h]

theorem upsert_video_uniqueKeys (tbl : VideosTable) (title url summary thumbnail source : String)
    (published_iso last_updated_iso : Option String) (now : String)
    (h : UniqueKeys (fun r => r.url) tbl.rows) :
    UniqueKeys (fun r => r.url)
      (upsert_video tbl title url summary thumbnail source published_iso last_updated_iso now).2.rows := by
  unfold upsert_video
  cases hfind : tbl.rows.find? (fun r => r.url = url) with
  | some r =>
    simp only
    apply uniqueKeys_map _ _ _ h
    intro a
    exact (upsert_video_updates_preserve title url summary thumbnail source
      published_iso last_updated_iso now a).1
  | none =>
    simp only
    apply uniqueKeys_append_fresh _ h
    intro a ha hcon
    have := List.find?_eq_none.mp hfind a ha
    simp only [decide_eq_true_eq] at this
    exact this hcon

theorem filter_url_map_video (f : VideoRow → VideoRow) (hf : ∀ a, (f a).url = a.url)
    (l : List VideoRow) (u : String) :
    (l.map f).filter (fun a => a.url = u) = (l.filter (fun a => a.url = u)).map f :=
  filter_key_map (fun r => r.url) f hf l u

theorem upsert_video_existing (tbl : VideosTable)
    (title url summary thumbnail source : String)
    (published_iso last_updated_iso : Option String) (now : String) (r : VideoRow)
    (hfilter : tbl.rows.filter (fun a => a.url = url) = [r]) :
    (upsert_video tbl title url summary thumbnail source published_iso last_updated_iso now).1
      = toString r.id ∧
    (upsert_video tbl title url summary thumbnail source published_iso last_updated_iso now).2.rows.filter
        (fun a => a.url = url) =
      [{ r with
          title := title
          thumbnail_url := thumbnail
          summary := summary
          source := source
          published_at := published_iso
          last_updated_at := last_updated_iso
          updated_at := now }] ∧
    (upsert_video tbl title url summary thumbnail source published_iso last_updated_iso now).2.rows.length
      = tbl.rows.length ∧
    (upsert_video tbl title url summary thumbnail source published_iso last_updated_iso now).2.nextId
      = tbl.nextId := by
  have hfind : tbl.rows.find? (fun a => a.url = url) = some r := by
    rw [find?_eq_head?_filter, hfilter]; rfl
  have hrurl : r.url = url := by
    have hmem : r ∈ tbl.rows.filter (fun a => a.url = url) := by
      rw [hfilter]; exact List.mem_singleton.mpr rfl
    simpa using (List.mem_filter.mp hmem).2
  unfold upsert_video
  rw [hfind]
  refine ⟨rfl, ?_, by simp, rfl⟩
  simp only
  rw [filter_url_map_video _ (fun a =>
    (upsert_video_updates_preserve title url summary thumbnail source
      published_iso last_updated_iso now a).1), hfilter]
  simp [hrurl]

theorem upsert_video_new (tbl : VideosTable)
    (title url summary thumbnail source : String)
    (published_iso last_updated_iso : Option String) (now : String)
    (hfilter : tbl.rows.filter (fun a => a.url = url) = []) :
    (upsert_video tbl title url summary thumbnail source published_iso last_updated_iso now).1
      = toString tbl.nextId ∧
    (upsert_video tbl title url summary thumbnail source published_iso last_updated_iso now).2.rows.filter
        (fun a => a.url = url) =
      [{ id := tbl.nextId
         url := url
         title := title
         thumbnail_url := thumbnail
         summary := summary
         source := source
         published_at := published_iso
         last_updated_at := last_updated_iso
         created_at := now
         updated_at := now }] ∧
    (upsert_video tbl title url summary thumbnail source published_iso last_updated_iso now).2.rows.length
      = tbl.rows.length + 1 ∧
    (upsert_video tbl title url summary thumbnail source published_iso last_updated_iso now).2.nextId
      = tbl.nextId + 1 := by
  have hfind : tbl.rows.find? (fun a => a.url = url) = none := by
    rw [find?_eq_head?_filter, hfilter]; rfl
  unfold upsert_video
  rw [hfind]
  refine ⟨rfl, ?_, by simp, rfl⟩
  simp only [List.filter_append, hfilter, List.nil_append]
  rw [List.filter_cons_of_pos (by simp)]
  rfl

/-- The conflict-branch update of `upsert_article` touches only mutable
columns: `url` and `id` are preserved. -/
theorem upsert_article_updates_preserve (title url summary body source : String)
    (published_iso last_updated_iso : Option String) (now : String) (s : ArticleRow) :
    ((fun s => if s.url = url then
        { s with
          title := title
          summary := summary
          body := body
          source := source
          published_at := published_iso
          last_updated_at := last_updated_iso
          updated_at := now }
      else s) s).url = s.url ∧
    ((fun s => if s.url = url then
        { s with
          title := title
          summary := summary
          body := body
          source := source
          published_at := published_iso
          last_updated_at := last_updated_iso
          updated_at := now }
      else s) s).id = s.id := by
  by_cases h : s.url = url <;> simp [h]

theorem upsert_article_uniqueKeys (tbl : ArticlesTable)
    (title url summary body source : String)
    (published_iso last_updated_iso : Option String) (now : String)
    (h : UniqueKeys (fun r => r.url) tbl.rows) :
    UniqueKeys (fun r => r.url)
      (upsert_article tbl title url summary body source published_iso last_updated_iso now).2.rows := by
  unfold upsert_article
  cases hfind : tbl.rows.find? (fun r => r.url = url) with
  | some r =>
    simp only
    apply uniqueKeys_map _ _ _ h
    intro a
    exact (upsert_article_updates_preserve title url summary body source
      published_iso last_updated_iso now a).1
  | none =>
    simp only
    apply uniqueKeys_append_fresh _ h
    intro a ha hcon
    have := List.find?_eq_none.mp hfind a ha
    simp only [decide_eq_true_eq] at this
    exact this hcon

theorem filter_url_map_article (f : ArticleRow → ArticleRow) (hf : ∀ a, (f a).url = a.url)
    (l : List ArticleRow) (u : String) :
    (l.map f).filter (fun a => a.url = u) = (l.filter (fun a => a.url = u)).map f :=
  filter_key_map (fun r => r.url) f hf l u

theorem upsert_article_existing (tbl : ArticlesTable)
    (title url summary body source : String)
    (published_iso last_updated_iso : Option String) (now : String) (r : ArticleRow)
    (hfilter : tbl.rows.filter (fun a => a.url = url) = [r]) :
    (upsert_article tbl title url summary body source published_iso last_updated_iso now).1
      = toString r.id ∧
    (upsert_article tbl title url summary body source published_iso last_updated_iso now).2.rows.filter
        (fun a => a.url = url) =
      [{ r with
          title := title
          summary := summary
          body := body
          source := source
          published_at := published_iso
          last_updated_at := last_updated_iso
          updated_at := now }] ∧
    (upsert_article tbl title url summary body source published_iso last_updated_iso now).2.rows.length
      = tbl.rows.length := by
  have hfind : tbl.rows.find? (fun a => a.url = url) = some r := by
    rw [find?_eq_head?_filter, hfilter]; rfl
  have hrurl : r.url = url := by
    have hmem : r ∈ tbl.rows.filter (fun a => a.url = url) := by
      rw [hfilter]; exact List.mem_singleton.mpr rfl
    simpa using (List.mem_filter.mp hmem).2
  unfold upsert_article
  rw [hfind]
  refine ⟨rfl, ?_, by simp⟩
  simp only
  rw [filter_url_map_article _ (fun a =>
    (upsert_article_updates_preserve title url summary body source
      published_iso last_updated_iso now a).1), hfilter]
  simp [hrurl]

theorem upsert_article_new (tbl : ArticlesTable)
    (title url summary body source : String)
    (published_iso last_updated_iso : Option String) (now : String)
    (hfilter : tbl.rows.filter (fun a => a.url = url) = []) :
    (upsert_article tbl title url summary body source published_iso last_updated_iso now).1
      = toString tbl.nextId ∧
    (upsert_article tbl title url summary body source published_iso last_updated_iso now).2.rows.filter
        (fun a => a.url = url) =
      [{ id := tbl.nextId
         url := url
         title := title
         summary := summary
         body := body
         source := source
         published_at := published_iso
         last_updated_at := last_updated_iso
         created_at := now
         updated_at := now }] ∧
    (upsert_article tbl title url summary body source published_iso last_updated_iso now).2.rows.length
      = tbl.rows.length + 1 := by
  have hfind : tbl.rows.find? (fun a => a.url = url) = none := by
    rw [find?_eq_head?_filter, hfilter]; rfl
  unfold upsert_article
  rw [hfind]
  refine ⟨rfl, ?_, by simp⟩
  simp only [List.filter_append, hfilter, List.nil_append]
  rw [List.filter_cons_of_pos (by simp)]
  rfl

theorem uniqueKeys_filter_cases {α : Type} (key : α → String) {l : List α}
    (huniq : UniqueKeys key l) (u : String) :
    l.filter (fun a => key a = u) = [] ∨ ∃ r, l.filter (fun a => key a = u) = [r] := by
  cases hfind : l.find? (fun a => key a = u) with
  | none =>
    left
    rw [find?_eq_head?_filter] at hfind
    exact List.head?_eq_none_iff.mp hfind
  | some r =>
    right
    exact ⟨r, filter_eq_singleton_of_uniqueKeys key huniq hfind⟩

/-! ## Claim theorems -/

/-- C3: for all (url, hash) pairs, `has_changed` is true on a fresh store,
false after `mark_processed` with the same hash (and on every later call while
that hash stays stored), and true again after `mark_processed` with a
different hash; `has_changed(url, newHash)` is true exactly when the stored
hash for `url` is absent or different from `newHash`; and `mark_processed` is
insert-or-replace keyed by URL. -/
theorem dedup_hasChanged_markProcessed_correct :
    (∀ url h, has_changed [] url h = true) ∧
    (∀ db url h, has_changed (mark_processed db url h) url h = false) ∧
    (∀ db url h h2, h2 ≠ h → has_changed (mark_processed db url h2) url h = true) ∧
    (∀ db url newHash,
      has_changed db url newHash = true ↔
        (get_stored_hash db url = none ∨ get_stored_hash db url ≠ some newHash)) ∧
    (∀ db url h u, get_stored_hash (mark_processed db url h) u =
        if u = url then some h else get_stored_hash db u) := by
  have hmark := get_stored_hash_mark_processed
  refine ⟨?_, ?_, ?_, ?_, hmark⟩
  · intro url h
    simp [has_changed, get_stored_hash, List.find?]
  · intro db url h
    have := hmark db url h url
    simp only [if_pos rfl] at this
    simp [has_changed, this]
  · intro db url h h2 hne
    have := hmark db url h2 url
    simp only [if_pos rfl] at this
    simp [has_changed, this]
    exact hne
  · intro db url newHash
    unfold has_changed
    cases hget : get_stored_hash db url with
    | none => simp [hget]
    | some s =>
      constructor
      · intro hb
        right
        simpa [hget] using hb
      · intro hb
        rcases hb with hb | hb
        · cases hb
        · simpa [hget] using hb

/-- C3 witness: concrete dedup cycle for url `"u"`, hashes `"h1"`/`"h2"`. -/
theorem dedup_hasChanged_markProcessed_correct_witness :
    (("h2" : String) ≠ "h1" ∧ has_changed (mark_processed [] "u" "h2") "u" "h1" = true) ∧
    has_changed [] "u" "h1" = true ∧
    has_changed (mark_processed [] "u" "h1") "u" "h1" = false := by
  have h := dedup_hasChanged_markProcessed_correct
  exact ⟨⟨by decide, h.2.2.1 [] "u" "h1" "h2" (by decide)⟩,
    h.1 "u" "h1", h.2.1 [] "u" "h1"⟩

/-- C6: for `RateLimiter(rate, period)` with `1 ≤ rate` and `0 < period`,
`acquire` on any well-formed state computes exactly the specified algorithm
(prune; when at `rate`, wait `period − (now − oldest_retained)` and re-prune;
append now), and after every call of any sequence of `acquire()` calls at
most `rate` recorded grant timestamps lie within the last `period`. -/
theorem rateLimiter_acquire_follows_spec_and_bounds_window (rate : ℕ) (period : ℚ)
    (hrate : 1 ≤ rate) (hper : 0 < period) :
    (∀ now st, RLGood rate now st →
        acquire rate period now st = acquireSpecModel rate period now st) ∧
    (∀ (deltas : List ℚ) (t0 : ℚ), (∀ d ∈ deltas, 0 ≤ d) →
        grantsWithin period (runAcquires rate period deltas t0 ⟨[]⟩).1
          (runAcquires rate period deltas t0 ⟨[]⟩).2 ≤ rate ∧
        RLGood rate (runAcquires rate period deltas t0 ⟨[]⟩).1
          (runAcquires rate period deltas t0 ⟨[]⟩).2) := by
  constructor
  · intro now st hgood
    exact (acquire_step rate period now st hrate hper hgood).1
  · intro deltas t0 hd
    have hgood0 : RLGood rate t0 ⟨[]⟩ := ⟨by simp, List.sorted_nil, by simp⟩
    have h := runAcquires_good rate period hrate hper deltas t0 ⟨[]⟩ hd hgood0
    exact ⟨h.2, h.1⟩

/-- C6 witness: `RateLimiter(2, 1)`; three back-to-back acquires leave at most
2 grants inside the rolling window, and a concrete acquire matches the
spec's algorithm. -/
theorem rateLimiter_acquire_follows_spec_and_bounds_window_witness :
    (1 ≤ 2 ∧ (0 : ℚ) < 1) ∧
    acquire 2 1 5 ⟨[]⟩ = acquireSpecModel 2 1 5 ⟨[]⟩ ∧
    grantsWithin 1 (runAcquires 2 1 [0, 0, 0] 0 ⟨[]⟩).1
      (runAcquires 2 1 [0, 0, 0] 0 ⟨[]⟩).2 ≤ 2 := by
  have h := rateLimiter_acquire_follows_spec_and_bounds_window 2 1 (by norm_num) (by norm_num)
  refine ⟨⟨by norm_num, by norm_num⟩, ?_, ?_⟩
  · exact h.1 5 ⟨[]⟩ ⟨by simp, List.sorted_nil, by simp⟩
  · exact (h.2 [0, 0, 0] 0 (by decide)).1

theorem applyVideoCalls_aux (cs : List VideoCall) :
    ∀ tbl, UniqueKeys (fun r => r.url) tbl.rows →
      UniqueKeys (fun r => r.url) (cs.foldl applyVideoCall tbl).rows := by
  induction cs with
  | nil => intro tbl h; exact h
  | cons c cs ih =>
    intro tbl h
    rw [List.foldl_cons]
    exact ih _ (upsert_video_uniqueKeys tbl c.title c.url c.summary c.thumbnail c.source
      c.published_iso c.last_updated_iso c.now h)

theorem applyArticleCalls_aux (cs : List ArticleCall) :
    ∀ tbl, UniqueKeys (fun r => r.url) tbl.rows →
      UniqueKeys (fun r => r.url) (cs.foldl applyArticleCall tbl).rows := by
  induction cs with
  | nil => intro tbl h; exact h
  | cons c cs ih =>
    intro tbl h
    rw [List.foldl_cons]
    exact ih _ (upsert_article_uniqueKeys tbl c.title c.url c.summary c.body c.source
      c.published_iso c.last_updated_iso c.now h)

theorem upsertTitles_from_singleton (url : String) (ts : List String) :
    ∀ tbl (r : VideoRow), tbl.rows.filter (fun a => a.url = url) = [r] →
      ∃ r2, (upsertTitles url ts tbl).rows.filter (fun a => a.url = url) = [r2] ∧
        r2.title = ts.getLastD r.title ∧
        (upsertTitles url ts tbl).rows.length = tbl.rows.length := by
  induction ts with
  | nil =>
    intro tbl r hfilter
    exact ⟨r, hfilter, rfl, rfl⟩
  | cons t ts ih =>
    intro tbl r hfilter
    have hstep := upsert_video_existing tbl t url "" "" "" none none "" r hfilter
    have hfold : upsertTitles url (t :: ts) tbl =
        upsertTitles url ts (upsert_video tbl t url "" "" "" none none "").2 := by
      simp [upsertTitles, List.foldl_cons]
    obtain ⟨r2, hf2, ht2, hl2⟩ := ih (upsert_video tbl t url "" "" "" none none "").2 _ hstep.2.1
    refine ⟨r2, by rw [hfold]; exact hf2, ?_, ?_⟩
    · rw [List.getLastD_cons]
      simpa using ht2
    · rw [hfold, hl2, hstep.2.2.1]

/-- C2: for every sequence of `upsert_video`/`upsert_article` calls the
embedded tables keep at most one record per URL; N upserts to one URL from an
empty table leave exactly one record whose title is the last written; and on
any unique-URL table, upserting twice with the same URL and field values
returns the same identifier both times and leaves exactly one record for that
URL without growing the table. -/
theorem upsert_uniqueness_idempotence_lastwrite :
    (∀ cs : List VideoCall, UniqueKeys (fun r => r.url) (applyVideoCalls cs).rows) ∧
    (∀ cs : List ArticleCall, UniqueKeys (fun r => r.url) (applyArticleCalls cs).rows) ∧
    (∀ url ts, ts ≠ [] → ∃ r : VideoRow,
        (upsertTitles url ts VideosTable.empty).rows = [r] ∧
        r.title = ts.getLastD "" ∧ r.url = url) ∧
    (∀ tbl title url summary thumbnail source published_iso last_updated_iso now1 now2,
        UniqueKeys (fun r => r.url) tbl.rows →
        (upsert_video tbl title url summary thumbnail source published_iso last_updated_iso now1).1 =
          (upsert_video
            (upsert_video tbl title url summary thumbnail source published_iso last_updated_iso now1).2
            title url summary thumbnail source published_iso last_updated_iso now2).1 ∧
        (∃ s, (upsert_video
            (upsert_video tbl title url summary thumbnail source published_iso last_updated_iso now1).2
            title url summary thumbnail source published_iso last_updated_iso now2).2.rows.filter
              (fun a => a.url = url) = [s]) ∧
        (upsert_video
            (upsert_video tbl title url summary thumbnail source published_iso last_updated_iso now1).2
            title url summary thumbnail source published_iso last_updated_iso now2).2.rows.length =
          (upsert_video tbl title url summary thumbnail source published_iso last_updated_iso now1).2.rows.length) ∧
    (∀ tbl title url summary body source published_iso last_updated_iso now1 now2,
        UniqueKeys (fun r => r.url) tbl.rows →
        (upsert_article tbl title url summary body source published_iso last_updated_iso now1).1 =
          (upsert_article
            (upsert_article tbl title url summary body source published_iso last_updated_iso now1).2
            title url summary body source published_iso last_updated_iso now2).1 ∧
        (∃ s, (upsert_article
            (upsert_article tbl title url summary body source published_iso last_updated_iso now1).2
            title url summary body source published_iso last_updated_iso now2).2.rows.filter
              (fun a => a.url = url) = [s]) ∧
        (upsert_article
            (upsert_article tbl title url summary body source published_iso last_updated_iso now1).2
            title url summary body source published_iso last_updated_iso now2).2.rows.length =
          (upsert_article tbl title url summary body source published_iso last_updated_iso now1).2.rows.length) := by
  refine ⟨fun cs => applyVideoCalls_aux cs VideosTable.empty List.Pairwise.nil,
    fun cs => applyArticleCalls_aux cs ArticlesTable.empty List.Pairwise.nil,
    ?_, ?_, ?_⟩
  · intro url ts hne
    obtain ⟨t, ts2, rfl⟩ : ∃ t ts2, ts = t :: ts2 := by
      cases ts with
      | nil => exact absurd rfl hne
      | cons a l => exact ⟨a, l, rfl⟩
    have hstep := upsert_video_new VideosTable.empty t url "" "" "" none none "" (by rfl)
    have hfold : upsertTitles url (t :: ts2) VideosTable.empty =
        upsertTitles url ts2 (upsert_video VideosTable.empty t url "" "" "" none none "").2 := by
      simp [upsertTitles, List.foldl_cons]
    obtain ⟨r2, hf2, ht2, hl2⟩ :=
      upsertTitles_from_singleton url ts2 _ _ hstep.2.1
    have hlen1 : (upsertTitles url (t :: ts2) VideosTable.empty).rows.length = 1 := by
      rw [hfold, hl2, hstep.2.2.1]
      rfl
    obtain ⟨y, hy⟩ : ∃ y, (upsertTitles url (t :: ts2) VideosTable.empty).rows = [y] := by
      cases hrows : (upsertTitles url (t :: ts2) VideosTable.empty).rows with
      | nil => rw [hrows] at hlen1; cases hlen1
      | cons a l =>
        rw [hrows] at hlen1
        simp only [List.length_cons, Nat.add_left_eq_self, List.length_eq_zero] at hlen1
        exact ⟨a, by rw [hlen1]⟩
    have hfy : [y].filter (fun a => a.url = url) = [r2] := by
      rw [← hy, hfold]
      exact hf2
    have hyr : y = r2 := by
      by_cases hp : y.url = url
      · rw [List.filter_cons_of_pos (by simpa using hp)] at hfy
        simpa using (List.cons_eq_cons.mp hfy).1
      · rw [List.filter_cons_of_neg (by simpa using hp)] at hfy
        cases hfy
    rw [hyr] at hy
    refine ⟨r2, hy, ?_, ?_⟩
    · rw [List.getLastD_cons]
      simpa using ht2
    · have hmem : r2 ∈ [y].filter (fun a => a.url = url) := by
        rw [hfy]; exact List.mem_singleton.mpr rfl
      simpa using (List.mem_filter.mp hmem).2
  · intro tbl title url summary thumbnail source published_iso last_updated_iso now1 now2 huniq
    rcases uniqueKeys_filter_cases (fun r : VideoRow => r.url) huniq url with hnone | ⟨r, hone⟩
    · have h1 := upsert_video_new tbl title url summary thumbnail source
        published_iso last_updated_iso now1 hnone
      have h2 := upsert_video_existing
        (upsert_video tbl title url summary thumbnail source published_iso last_updated_iso now1).2
        title url summary thumbnail source published_iso last_updated_iso now2 _ h1.2.1
      refine ⟨?_, ⟨_, h2.2.1⟩, h2.2.2.1⟩
      rw [h1.1, h2.1]
    · have h1 := upsert_video_existing tbl title url summary thumbnail source
        published_iso last_updated_iso now1 r hone
      have h2 := upsert_video_existing
        (upsert_video tbl title url summary thumbnail source published_iso last_updated_iso now1).2
        title url summary thumbnail source published_iso last_updated_iso now2 _ h1.2.1
      refine ⟨?_, ⟨_, h2.2.1⟩, h2.2.2.1⟩
      rw [h1.1, h2.1]
  · intro tbl title url summary body source published_iso last_updated_iso now1 now2 huniq
    rcases uniqueKeys_filter_cases (fun r : ArticleRow => r.url) huniq url with hnone | ⟨r, hone⟩
    · have h1 := upsert_article_new tbl title url summary body source
        published_iso last_updated_iso now1 hnone
      have h2 := upsert_article_existing
        (upsert_article tbl title url summary body source published_iso last_updated_iso now1).2
        title url summary body source published_iso last_updated_iso now2 _ h1.2.1
      refine ⟨?_, ⟨_, h2.2.1⟩, h2.2.2⟩
      rw [h1.1, h2.1]
    · have h1 := upsert_article_existing tbl title url summary body source
        published_iso last_updated_iso now1 r hone
      have h2 := upsert_article_existing
        (upsert_article tbl title url summary body source published_iso last_updated_iso now1).2
        title url summary body source published_iso last_updated_iso now2 _ h1.2.1
      refine ⟨?_, ⟨_, h2.2.1⟩, h2.2.2⟩
      rw [h1.1, h2.1]

/-- C2 witness: two titled upserts to url `"u"` leave one row titled `"b"`;
a concrete double upsert returns the same id twice. -/
theorem upsert_uniqueness_idempotence_lastwrite_witness :
    ((["a", "b"] : List String) ≠ [] ∧
      (∃ r : VideoRow, (upsertTitles "u" ["a", "b"] VideosTable.empty).rows = [r] ∧
        r.title = (["a", "b"] : List String).getLastD "" ∧ r.url = "u")) ∧
    (UniqueKeys (fun r : VideoRow => r.url) VideosTable.empty.rows ∧
      (upsert_video VideosTable.empty "T" "u" "s" "th" "c" none none "n1").1 =
        (upsert_video (upsert_video VideosTable.empty "T" "u" "s" "th" "c" none none "n1").2
          "T" "u" "s" "th" "c" none none "n2").1) := by
  have h := upsert_uniqueness_idempotence_lastwrite
  exact ⟨⟨by decide, h.2.2.1 "u" ["a", "b"] (by decide)⟩,
    ⟨List.Pairwise.nil,
     (h.2.2.2.1 VideosTable.empty "T" "u" "s" "th" "c" none none "n1" "n2"
       List.Pairwise.nil).1⟩⟩

/-- C4 (amended): in the embedded writer, `log_event` with an action or result
outside the closed enumerations fails with an integrity error and stores
nothing, while valid values always append exactly one new row; the hosted
writer's `log_event` performs no client-side validation and issues its create
request — appending a log page — whatever the action/result values are. -/
theorem logEvent_closed_enum_constraint :
    (∀ tbl item_url action result message when_iso now,
        (action ∉ validActions ∨ result ∉ validResults) →
        log_event tbl item_url action result message when_iso now =
          .error "IntegrityError: CHECK constraint failed") ∧
    (∀ tbl item_url action result message when_iso now,
        action ∈ validActions → result ∈ validResults →
        ∃ newRow, log_event tbl item_url action result message when_iso now =
          .ok (toString tbl.nextId, ⟨tbl.rows ++ [newRow], tbl.nextId + 1⟩)) ∧
    (∀ logDbId pages newPageId item_url action result message when_iso now,
        ∃ page, (notion_log_event logDbId pages newPageId item_url action result
            message when_iso now).2.1 = pages ++ [page] ∧
          page.action = action ∧ page.result = result) := by
  refine ⟨?_, ?_, ?_⟩
  · intro tbl item_url action result message when_iso now hbad
    unfold log_event
    rw [if_neg]
    intro ⟨ha, hr⟩
    rcases hbad with hbad | hbad
    · exact hbad ha
    · exact hbad hr
  · intro tbl item_url action result message when_iso now ha hr
    refine ⟨⟨tbl.nextId,
      match when_iso with
      | none => now
      | some s => if s = "" then now else s,
      item_url, action, result, message⟩, ?_⟩
    unfold log_event
    rw [if_pos ⟨ha, hr⟩]
  · intro logDbId pages newPageId item_url action result message when_iso now
    exact ⟨_, rfl, rfl, rfl⟩

/-- C4 witness: `"purge"` is rejected by the embedded constraint, `"write"`
with `"ok"` inserts; the hosted writer appends a page even for `"purge"`. -/
theorem logEvent_closed_enum_constraint_witness :
    (("purge" ∉ validActions ∨ "ok" ∉ validResults) ∧
      log_event LogTable.empty "u" "purge" "ok" "" none "t" =
        .error "IntegrityError: CHECK constraint failed") ∧
    ("write" ∈ validActions ∧ "ok" ∈ validResults ∧
      ∃ newRow, log_event LogTable.empty "u" "write" "ok" "" none "t" =
        .ok (toString LogTable.empty.nextId,
          ⟨LogTable.empty.rows ++ [newRow], LogTable.empty.nextId + 1⟩)) := by
  have h := logEvent_closed_enum_constraint
  exact ⟨⟨Or.inl (by decide), h.1 LogTable.empty "u" "purge" "ok" "" none "t"
      (Or.inl (by decide))⟩,
    ⟨by decide, by decide, h.2.1 LogTable.empty "u" "write" "ok" "" none "t"
      (by decide) (by decide)⟩⟩

/-- C4 counterexample: in the hosted writer variant, `log_event` with the
out-of-enumeration action `"purge"` does not fail — it returns the created
page id and a log page holding `action = "purge"` is appended. -/
theorem logEvent_closed_enum_constraint_counterexample :
    ("purge" : String) ∉ validActions ∧
    (notion_log_event "logdb" [] "p1" "u" "purge" "ok" "" none "t").1 = "p1" ∧
    (notion_log_event "logdb" [] "p1" "u" "purge" "ok" "" none "t").2.1.length = 1 := by
  decide

/-- C5 (amended): every remote call the hosted-API writer makes — the
query-by-URL and the create/update of `upsert_video`, and `log_event`'s
create — is issued directly on the shared client: its trace consists of
remote calls only, with no mutual-exclusion lock acquisition and no
rate-limiter `acquire` anywhere (`tools/rate_limiter.py` is never imported by
the writer), so no remote call is preceded by either. -/
theorem notion_remote_calls_direct_unthrottled :
    (∀ dbId pages newPageId title url summary thumbnail source published_iso last_updated_iso,
        (∀ e ∈ (notion_upsert_video dbId pages newPageId title url summary thumbnail source
            published_iso last_updated_iso).2.2, isRemoteCall e = true) ∧
        ((∃ pid, (notion_upsert_video dbId pages newPageId title url summary thumbnail source
            published_iso last_updated_iso).2.2 = [.databaseQuery dbId url, .pageUpdate pid]) ∨
          (notion_upsert_video dbId pages newPageId title url summary thumbnail source
            published_iso last_updated_iso).2.2 = [.databaseQuery dbId url, .pageCreate dbId]) ∧
        ¬ ThrottledSerialized (notion_upsert_video dbId pages newPageId title url summary
            thumbnail source published_iso last_updated_iso).2.2) ∧
    (∀ logDbId pages newPageId item_url action result message when_iso now,
        (notion_log_event logDbId pages newPageId item_url action result message
          when_iso now).2.2 = [.pageCreate logDbId] ∧
        ¬ ThrottledSerialized (notion_log_event logDbId pages newPageId item_url action result
          message when_iso now).2.2) := by
  constructor
  · intro dbId pages newPageId title url summary thumbnail source published_iso last_updated_iso
    have htr : (notion_upsert_video dbId pages newPageId title url summary thumbnail source
        published_iso last_updated_iso).2.2 =
        match notion_find_page_by_link pages url with
        | some pid => [.databaseQuery dbId url, .pageUpdate pid]
        | none => [.databaseQuery dbId url, .pageCreate dbId] := by
      unfold notion_upsert_video
      cases notion_find_page_by_link pages url <;> rfl
    cases hfind : notion_find_page_by_link pages url with
    | some pid =>
      rw [hfind] at htr
      rw [htr]
      refine ⟨?_, Or.inl ⟨pid, rfl⟩, ?_⟩
      · intro e he
        rcases List.mem_cons.mp he with rfl | he
        · rfl
        · rcases List.mem_singleton.mp he with rfl
          rfl
      · intro hth
        obtain ⟨⟨j, hj, _⟩, _⟩ := hth ⟨0, by simp⟩ rfl
        exact absurd hj (by simp)
    | none =>
      rw [hfind] at htr
      rw [htr]
      refine ⟨?_, Or.inr rfl, ?_⟩
      · intro e he
        rcases List.mem_cons.mp he with rfl | he
        · rfl
        · rcases List.mem_singleton.mp he with rfl
          rfl
      · intro hth
        obtain ⟨⟨j, hj, _⟩, _⟩ := hth ⟨0, by simp⟩ rfl
        exact absurd hj (by simp)
  · intro logDbId pages newPageId item_url action result message when_iso now
    have htr : (notion_log_event logDbId pages newPageId item_url action result message
        when_iso now).2.2 = [.pageCreate logDbId] := rfl
    refine ⟨htr, ?_⟩
    rw [htr]
    intro hth
    obtain ⟨⟨j, hj, _⟩, _⟩ := hth ⟨0, by simp⟩ rfl
    exact absurd hj (by simp)

/-- C5 witness: a concrete hosted upsert issues its query and create directly,
with its trace free of lock and limiter events. -/
theorem notion_remote_calls_direct_unthrottled_witness :
    ((notion_upsert_video "db" [] "p1" "T" "u" "" "" "" none none).2.2 =
      [.databaseQuery "db" "u", .pageCreate "db"]) ∧
    (∀ e ∈ (notion_upsert_video "db" [] "p1" "T" "u" "" "" "" none none).2.2,
      isRemoteCall e = true) ∧
    ¬ ThrottledSerialized (notion_upsert_video "db" [] "p1" "T" "u" "" "" "" none none).2.2 := by
  have h := notion_remote_calls_direct_unthrottled
  have h1 := h.1 "db" [] "p1" "T" "u" "" "" "" none none
  exact ⟨by decide, h1.1, h1.2.2⟩

/-- C5 counterexample: for a concrete `upsert_video` call the claimed
discipline — every remote call preceded by a limiter acquire under the
instance lock — is false: the very first trace event is the remote
query-by-URL with nothing before it. -/
theorem notion_remote_calls_direct_unthrottled_counterexample :
    ¬ ThrottledSerialized (notion_upsert_video "db" [] "p1" "T" "u" "" "" ""
        none none).2.2 := by
  decide

theorem pyTake_empty (n : ℕ) : pyTake "" n = "" := by
  show String.mk (List.take n ([] : List Char)) = String.mk []
  rw [List.take_nil]

/-- C9: the hosted writer persists `title[:200]` and `summary[:2000]`
(articles also `body[:2000]`), whereas the embedded writer persists every
field in full, so sufficiently long inputs are stored differently by the two
variants of the same call. -/
theorem hosted_truncates_embedded_stores_full :
    (∀ title url summary thumbnail source published_iso last_updated_iso,
        (notionVideoProps title url summary thumbnail source
          published_iso last_updated_iso).name = pyTake title 200 ∧
        (notionVideoProps title url summary thumbnail source
          published_iso last_updated_iso).summaryText = pyTake summary 2000) ∧
    (∀ title url summary body source published_iso last_updated_iso,
        (notionArticleProps title url summary body source
          published_iso last_updated_iso).name = pyTake title 200 ∧
        (notionArticleProps title url summary body source
          published_iso last_updated_iso).summaryText = pyTake summary 2000 ∧
        (notionArticleProps title url summary body source
          published_iso last_updated_iso).bodyText = pyTake body 2000) ∧
    (∀ title url summary thumbnail source published_iso last_updated_iso now,
        ∃ r, (upsert_video VideosTable.empty title url summary thumbnail source
            published_iso last_updated_iso now).2.rows = [r] ∧
          r.title = title ∧ r.summary = summary) ∧
    (∀ title url summary body source published_iso last_updated_iso now,
        ∃ r, (upsert_article ArticlesTable.empty title url summary body source
            published_iso last_updated_iso now).2.rows = [r] ∧
          r.title = title ∧ r.summary = summary ∧ r.body = body) ∧
    (∃ title : String,
        (notionVideoProps title "u" "" "" "" none none).name ≠ title) := by
  refine ⟨?_, ?_, ?_, ?_, ?_⟩
  · intro title url summary thumbnail source published_iso last_updated_iso
    refine ⟨rfl, ?_⟩
    by_cases hs : summary = ""
    · subst hs
      show ("" : String) = pyTake "" 2000
      rw [pyTake_empty]
    · simp [notionVideoProps, hs]
  · intro title url summary body source published_iso last_updated_iso
    refine ⟨rfl, ?_, ?_⟩
    · by_cases hs : summary = ""
      · subst hs
        show ("" : String) = pyTake "" 2000
        rw [pyTake_empty]
      · simp [notionArticleProps, hs]
    · by_cases hb : body = ""
      · subst hb
        show ("" : String) = pyTake "" 2000
        rw [pyTake_empty]
      · simp [notionArticleProps, hb]
  · intro title url summary thumbnail source published_iso last_updated_iso now
    exact ⟨_, rfl, rfl, rfl⟩
  · intro title url summary body source published_iso last_updated_iso now
    exact ⟨_, rfl, rfl, rfl, rfl⟩
  · refine ⟨String.mk (List.replicate 201 'a'), ?_⟩
    intro hcon
    have h2 : (List.take 200 (List.replicate 201 'a')).length =
        (List.replicate 201 'a').length := congrArg (fun s => s.data.length) hcon
    rw [List.length_take, List.length_replicate] at h2
    omega

theorem listLeChar_total : ∀ as bs : List Char,
    listLeChar as bs = true ∨ listLeChar bs as = true := by
  intro as
  induction as with
  | nil => intro bs; left; rfl
  | cons a as ih =>
    intro bs
    cases bs with
    | nil => right; rfl
    | cons b bs =>
      rcases lt_trichotomy a b with h | h | h
      · left; simp [listLeChar, h]
      · subst h
        rcases ih bs with h2 | h2
        · left; simp [listLeChar, h2]
        · right; simp [listLeChar, h2]
      · right; simp [listLeChar, h]

theorem listLeChar_trans : ∀ as bs cs : List Char,
    listLeChar as bs = true → listLeChar bs cs = true → listLeChar as cs = true := by
  intro as
  induction as with
  | nil => intro bs cs h1 h2; rfl
  | cons a as ih =>
    intro bs cs h1 h2
    cases bs with
    | nil => cases h1
    | cons b bs =>
      cases cs with
      | nil => cases h2
      | cons c cs =>
        by_cases hab : a < b
        · by_cases hbc : b < c
          · simp [listLeChar, lt_trans hab hbc]
          · by_cases hbc2 : b = c
            · subst hbc2
              simp [listLeChar, hab]
            · simp [listLeChar, hbc, hbc2] at h2
        · by_cases hab2 : a = b
          · subst hab2
            simp only [listLeChar, if_neg hab, if_pos rfl] at h1
            by_cases hbc : a < c
            · simp [listLeChar, hbc]
            · by_cases hbc2 : a = c
              · subst hbc2
                simp only [listLeChar, if_neg hbc, if_pos rfl] at h2 ⊢
                exact ih bs cs h1 h2
              · simp [listLeChar, hbc, hbc2] at h2
          · simp [listLeChar, hab, hab2] at h1

theorem strLe_total (a b : String) : strLe a b ∨ strLe b a :=
  listLeChar_total a.data b.data

theorem strLe_trans {a b c : String} (h1 : strLe a b) (h2 : strLe b c) : strLe a c :=
  listLeChar_trans a.data b.data c.data h1 h2

theorem pubLe_total : ∀ x y : Option String, pubLe x y ∨ pubLe y x
  | none, _ => Or.inl trivial
  | some _, none => Or.inr trivial
  | some a, some b => strLe_total a b

theorem pubLe_trans : ∀ {x y z : Option String}, pubLe x y → pubLe y z → pubLe x z
  | none, _, _, _, _ => trivial
  | some _, none, _, h, _ => absurd h (fun h => h)
  | some _, some _, none, _, h => absurd h (fun h => h)
  | some _, some _, some _, h1, h2 => strLe_trans h1 h2

instance : IsTotal VideoRow recentVideoLE :=
  ⟨fun a b => pubLe_total b.published_at a.published_at⟩

instance : IsTrans VideoRow recentVideoLE :=
  ⟨fun _ _ _ h1 h2 => pubLe_trans h2 h1⟩

instance : IsTotal (VideoRow × ℚ) rankLE := ⟨fun a b => le_total a.2 b.2⟩

instance : IsTrans (VideoRow × ℚ) rankLE := ⟨fun _ _ _ h1 h2 => le_trans h1 h2⟩

theorem dictPub_videoDict (r : VideoRow) : dictPub (videoDict r) = r.published_at := by
  cases h : r.published_at <;> simp [dictPub, videoDict, List.lookup, optText, h]

/-- C8 (amended): `get_recent_videos` returns at most `limit` dicts of the
fixed eight-key shape ordered by publish time descending (`NULL` last);
`search_videos` returns at most `limit` dicts of the same shape, but ordered
by the full-text match rank ascending — not by publish time. -/
theorem read_paths_limit_shape_order :
    (∀ tbl limit,
        (get_recent_videos tbl limit).length ≤ limit ∧
        (get_recent_videos tbl limit).Pairwise
          (fun d1 d2 => pubLe (dictPub d2) (dictPub d1)) ∧
        (∀ d ∈ get_recent_videos tbl limit, dictKeys d = videoDictKeys)) ∧
    (∀ tbl fts query limit,
        (search_videos tbl fts query limit).length ≤ limit ∧
        (∀ d ∈ search_videos tbl fts query limit, dictKeys d = videoDictKeys) ∧
        (∃ scored : List (VideoRow × ℚ),
          search_videos tbl fts query limit = scored.map (fun p => videoDict p.1) ∧
          scored.Pairwise (fun a b => a.2 ≤ b.2) ∧
          ∀ p ∈ scored, fts.score query p.1.id = some p.2 ∧ p.1 ∈ tbl.rows)) := by
  constructor
  · intro tbl limit
    refine ⟨?_, ?_, ?_⟩
    · rw [get_recent_videos, List.length_map]
      exact List.length_take_le _ _
    · rw [get_recent_videos]
      rw [List.pairwise_map]
      have hsorted : (List.insertionSort recentVideoLE tbl.rows).Pairwise recentVideoLE :=
        List.sorted_insertionSort recentVideoLE tbl.rows
      have htake : ((List.insertionSort recentVideoLE tbl.rows).take limit).Pairwise
          recentVideoLE :=
        hsorted.sublist (List.take_sublist _ _)
      exact htake.imp (fun {a b} hab => by
        rw [dictPub_videoDict, dictPub_videoDict]
        exact hab)
    · intro d hd
      rw [get_recent_videos] at hd
      obtain ⟨r, _, rfl⟩ := List.mem_map.mp hd
      rfl
  · intro tbl fts query limit
    refine ⟨?_, ?_, ?_⟩
    · rw [search_videos, List.length_map]
      exact List.length_take_le _ _
    · intro d hd
      rw [search_videos] at hd
      obtain ⟨p, _, rfl⟩ := List.mem_map.mp hd
      rfl
    · refine ⟨(List.insertionSort rankLE (tbl.rows.filterMap (fun r =>
        match fts.score query r.id with
        | some s => some (r, s)
        | none => none))).take limit, rfl, ?_, ?_⟩
      · have hsorted := List.sorted_insertionSort rankLE (tbl.rows.filterMap (fun r =>
          match fts.score query r.id with
          | some s => some (r, s)
          | none => none))
        exact hsorted.sublist (List.take_sublist _ _)
      · intro p hp
        have hp2 : p ∈ List.insertionSort rankLE (tbl.rows.filterMap (fun r =>
            match fts.score query r.id with
            | some s => some (r, s)
            | none => none)) := List.mem_of_mem_take hp
        have hp3 : p ∈ tbl.rows.filterMap (fun r =>
            match fts.score query r.id with
            | some s => some (r, s)
            | none => none) := (List.perm_insertionSort rankLE _).mem_iff.mp hp2
        obtain ⟨a, ha, hfa⟩ := List.mem_filterMap.mp hp3
        cases hs : fts.score query a.id with
        | none => rw [hs] at hfa; cases hfa
        | some s =>
          rw [hs] at hfa
          injection hfa with hfa
          subst hfa
          exact ⟨hs, ha⟩

/-- C8 witness: on the concrete two-row table, `get_recent_videos` keeps the
publish-descending order and the fixed dict shape within the limit. -/
theorem read_paths_limit_shape_order_witness :
    (get_recent_videos c8Table 2).length ≤ 2 ∧
    (videoDict (c8Rows.get ⟨0, by decide⟩)) ∈ get_recent_videos c8Table 2 ∧
    dictKeys (videoDict (c8Rows.get ⟨0, by decide⟩)) = videoDictKeys := by
  have h := read_paths_limit_shape_order
  refine ⟨(h.1 c8Table 2).1, by decide, ?_⟩
  exact (h.1 c8Table 2).2.2 (videoDict (c8Rows.get ⟨0, by decide⟩)) (by decide)

/-- C8 counterexample: `search_videos` output is ordered by match rank, and on
the concrete state that order is not publish-time descending — the older,
better-matching row comes first. -/
theorem read_paths_limit_shape_order_counterexample :
    ¬ (search_videos c8Table c8Fts "q" 10).Pairwise
        (fun d1 d2 => pubLe (dictPub d2) (dictPub d1)) := by
  decide

theorem process_video_eq_raise (hash : String → String) (now : String) (item : ItemRun)
    (st : PipeState) (ty msg : String) (hf : item.fetch = .raiseExc ty msg) :
    process_video hash now item st =
      if is_blocked ty msg then
        (.fatalErr ("Transcript API blocked: " ++ msg),
         pushEvent st (.logEvent item.url "fetch" "error" msg))
      else
        (.finished false, pushEvent st (.logEvent item.url "fetch" "error" msg)) := by
  unfold process_video
  rw [hf]

theorem process_video_eq_skip (hash : String → String) (now : String) (item : ItemRun)
    (st : PipeState) (transcript : String) (hf : item.fetch = .ok transcript)
    (hch : has_changed st.dedup item.url (hash transcript) = false) :
    process_video hash now item st =
      (.finished false, pushEvent st (.logEvent item.url "fetch" "skip" "unchanged")) := by
  unfold process_video
  rw [hf]
  simp only [hch]
  simp

theorem process_video_eq_write (hash : String → String) (now : String) (item : ItemRun)
    (st : PipeState) (transcript : String) (hf : item.fetch = .ok transcript)
    (hch : has_changed st.dedup item.url (hash transcript) = true)
    (hw : item.writeOk = true) :
    process_video hash now item st =
      (.finished true,
       ⟨mark_processed st.dedup item.url (hash transcript),
        ((st.events ++ [(summarizeStep item transcript).2]) ++
          [.upsertVideo item.title item.url (summarizeStep item transcript).1
            (if item.video_id = "" then ""
             else "https://i.ytimg.com/vi/" ++ item.video_id ++ "/maxresdefault.jpg")
            (item.channel.getD "") item.published_iso now]) ++
          [.logEvent item.url "write" "ok" "video upserted"]⟩) := by
  unfold process_video
  rw [hf]
  simp only [hch, hw, pushEvent]
  simp

theorem process_video_eq_writefail (hash : String → String) (now : String) (item : ItemRun)
    (st : PipeState) (transcript : String) (hf : item.fetch = .ok transcript)
    (hch : has_changed st.dedup item.url (hash transcript) = true)
    (hw : item.writeOk = false) :
    process_video hash now item st =
      (.finished false,
       pushEvent (pushEvent st (summarizeStep item transcript).2)
         (.logEvent item.url "write" "error" item.writeErrMsg)) := by
  unfold process_video
  rw [hf]
  simp only [hch, hw, pushEvent]
  simp

theorem process_video_events_mono (hash : String → String) (now : String) (item : ItemRun)
    (st : PipeState) :
    ∃ tail, (process_video hash now item st).2.events = st.events ++ tail := by
  cases hf : item.fetch with
  | raiseExc ty msg =>
    rw [process_video_eq_raise hash now item st ty msg hf]
    by_cases hb : is_blocked ty msg
    · rw [if_pos hb]; exact ⟨_, rfl⟩
    · rw [if_neg hb]; exact ⟨_, rfl⟩
  | ok transcript =>
    cases hch : has_changed st.dedup item.url (hash transcript) with
    | false =>
      rw [process_video_eq_skip hash now item st transcript hf hch]
      exact ⟨_, rfl⟩
    | true =>
      cases hw : item.writeOk with
      | true =>
        rw [process_video_eq_write hash now item st transcript hf hch hw]
        simp only [List.append_assoc]
        exact ⟨_, rfl⟩
      | false =>
        rw [process_video_eq_writefail hash now item st transcript hf hch hw]
        simp only [pushEvent, List.append_assoc]
        exact ⟨_, rfl⟩

theorem process_video_dedup_other (hash : String → String) (now : String) (item : ItemRun)
    (st : PipeState) (u : String) (hu : u ≠ item.url) :
    get_stored_hash (process_video hash now item st).2.dedup u = get_stored_hash st.dedup u := by
  cases hf : item.fetch with
  | raiseExc ty msg =>
    rw [process_video_eq_raise hash now item st ty msg hf]
    by_cases hb : is_blocked ty msg
    · rw [if_pos hb]
      rfl
    · rw [if_neg hb]
      rfl
  | ok transcript =>
    cases hch : has_changed st.dedup item.url (hash transcript) with
    | false =>
      rw [process_video_eq_skip hash now item st transcript hf hch]
      rfl
    | true =>
      cases hw : item.writeOk with
      | true =>
        rw [process_video_eq_write hash now item st transcript hf hch hw]
        show get_stored_hash (mark_processed st.dedup item.url (hash transcript)) u = _
        rw [get_stored_hash_mark_processed]
        rw [if_neg hu]
      | false =>
        rw [process_video_eq_writefail hash now item st transcript hf hch hw]
        rfl

theorem process_video_writes_own (hash : String → String) (now : String) (item : ItemRun)
    (st : PipeState) (transcript : String) (hf : item.fetch = .ok transcript)
    (hstored : get_stored_hash st.dedup item.url = none) (hw : item.writeOk = true) :
    (process_video hash now item st).2.events.any (eventWritesUrl item.url) = true := by
  have hch : has_changed st.dedup item.url (hash transcript) = true := by
    simp [has_changed, hstored]
  rw [process_video_eq_write hash now item st transcript hf hch hw]
  simp only [List.any_append, List.any_cons, List.any_nil, eventWritesUrl]
  simp

theorem process_video_fatal_iff (hash : String → String) (now : String) (item : ItemRun)
    (st : PipeState) (m : String) :
    (process_video hash now item st).1 = .fatalErr m ↔ itemFatal item = some m := by
  cases hf : item.fetch with
  | raiseExc ty msg =>
    have hfat : itemFatal item =
        (if is_blocked ty msg then some ("Transcript API blocked: " ++ msg) else none) := by
      unfold itemFatal
      rw [hf]
    rw [process_video_eq_raise hash now item st ty msg hf, hfat]
    by_cases hb : is_blocked ty msg
    · rw [if_pos hb, if_pos hb]
      simp
    · rw [if_neg hb, if_neg hb]
      simp
  | ok transcript =>
    have hnone : itemFatal item = none := by
      unfold itemFatal
      rw [hf]
    rw [hnone]
    cases hch : has_changed st.dedup item.url (hash transcript) with
    | false =>
      rw [process_video_eq_skip hash now item st transcript hf hch]
      simp
    | true =>
      cases hw : item.writeOk with
      | true =>
        rw [process_video_eq_write hash now item st transcript hf hch hw]
        simp
      | false =>
        rw [process_video_eq_writefail hash now item st transcript hf hch hw]
        simp

theorem ingest_results_events_mono (hash : String → String) (now : String) :
    ∀ (items : List ItemRun) (st : PipeState),
      ∃ tail, (ingest_results hash now items st).2.events = st.events ++ tail := by
  intro items
  induction items with
  | nil => intro st; exact ⟨[], by simp [ingest_results]⟩
  | cons it rest ih =>
    intro st
    obtain ⟨t1, h1⟩ := process_video_events_mono hash now it st
    obtain ⟨t2, h2⟩ := ih (process_video hash now it st).2
    refine ⟨t1 ++ t2, ?_⟩
    show (ingest_results hash now rest (process_video hash now it st).2).2.events = _
    rw [h2, h1, List.append_assoc]

theorem ingest_results_length (hash : String → String) (now : String) :
    ∀ (items : List ItemRun) (st : PipeState),
      (ingest_results hash now items st).1.length = items.length := by
  intro items
  induction items with
  | nil => intro st; rfl
  | cons it rest ih =>
    intro st
    show ((process_video hash now it st).1 ::
      (ingest_results hash now rest (process_video hash now it st).2).1).length = _
    rw [List.length_cons, ih]
    rfl

theorem ingest_results_firstFatal (hash : String → String) (now : String) :
    ∀ (items : List ItemRun) (st : PipeState),
      firstFatal (ingest_results hash now items st).1 = items.findSome? itemFatal := by
  intro items
  induction items with
  | nil => intro st; rfl
  | cons it rest ih =>
    intro st
    show firstFatal ((process_video hash now it st).1 ::
        (ingest_results hash now rest (process_video hash now it st).2).1) =
      (it :: rest).findSome? itemFatal
    rw [List.findSome?_cons]
    cases hfat : itemFatal it with
    | some m =>
      have := (process_video_fatal_iff hash now it st m).mpr hfat
      rw [this]
      rfl
    | none =>
      cases hr : (process_video hash now it st).1 with
      | fatalErr m =>
        have := (process_video_fatal_iff hash now it st m).mp hr
        rw [this] at hfat
        cases hfat
      | finished b =>
        show firstFatal _ = _
        unfold firstFatal
        exact ih _

theorem ingest_results_writes_all (hash : String → String) (now : String) :
    ∀ (items : List ItemRun) (st : PipeState) (item : ItemRun) (t : String),
      item ∈ items →
      items.Pairwise (fun a b => a.url ≠ b.url) →
      get_stored_hash st.dedup item.url = none →
      item.fetch = .ok t → item.writeOk = true →
      (ingest_results hash now items st).2.events.any (eventWritesUrl item.url) = true := by
  intro items
  induction items with
  | nil => intro st item t hmem; cases hmem
  | cons it rest ih =>
    intro st item t hmem hpw hstored hf hw
    rcases List.pairwise_cons.mp hpw with ⟨hhead, htail⟩
    rcases List.mem_cons.mp hmem with rfl | hmem2
    · -- the item is the head: it writes during its own run, and the events of
      -- the remaining tasks only extend the trace
      have hown := process_video_writes_own hash now item st t hf hstored hw
      obtain ⟨tail, htail2⟩ := ingest_results_events_mono hash now rest
        (process_video hash now item st).2
      show (ingest_results hash now rest (process_video hash now item st).2).2.events.any
        (eventWritesUrl item.url) = true
      rw [htail2, List.any_append, hown, Bool.true_or]
    · -- the item sits after the head; the head's processing does not touch the
      -- item's dedup entry (distinct URLs), so its own run still writes
      have hne : item.url ≠ it.url := fun hc => (hhead item hmem2) hc.symm
      have hstored2 : get_stored_hash (process_video hash now it st).2.dedup item.url = none := by
        rw [process_video_dedup_other hash now it st item.url hne]
        exact hstored
      exact ih (process_video hash now it st).2 item t hmem2 htail hstored2 hf hw

theorem ingest_batch_state (hash : String → String) (now : String) (items : List ItemRun)
    (st : PipeState) :
    (ingest_youtube_batch hash now items st).2 = (ingest_results hash now items st).2 := by
  simp only [ingest_youtube_batch]
  cases hff : firstFatal (ingest_results hash now items st).1 <;> rfl

/-- C1 (amended): the first fatal condition (in task order) wins and the batch
raises it instead of returning a success count; but because the orchestrator
gathers every task with `return_exceptions=True` and cancels nothing before
the scan, items scheduled after the blocked detection still run to
completion — an item whose fetch succeeds and whose write succeeds reaches
the write stage no matter where a blocked item sits in the batch. -/
theorem ingest_first_fatal_wins_writes_continue (hash : String → String) (now : String) :
    (∀ (items : List ItemRun) (st : PipeState) (m : String),
        items.findSome? itemFatal = some m →
        (ingest_youtube_batch hash now items st).1 = .fatalErr m) ∧
    (∀ (items : List ItemRun) (st : PipeState),
        items.findSome? itemFatal = none →
        (ingest_youtube_batch hash now items st).1 =
          .count (countSuccess (ingest_results hash now items st).1)) ∧
    (∀ (items : List ItemRun) (st : PipeState) (item : ItemRun) (t : String),
        item ∈ items →
        items.Pairwise (fun a b => a.url ≠ b.url) →
        get_stored_hash st.dedup item.url = none →
        item.fetch = .ok t → item.writeOk = true →
        (ingest_youtube_batch hash now items st).2.events.any
          (eventWritesUrl item.url) = true) := by
  refine ⟨?_, ?_, ?_⟩
  · intro items st m hm
    have hff : firstFatal (ingest_results hash now items st).1 = some m := by
      rw [ingest_results_firstFatal hash now items st, hm]
    simp only [ingest_youtube_batch, hff]
  · intro items st hm
    have hff : firstFatal (ingest_results hash now items st).1 = none := by
      rw [ingest_results_firstFatal hash now items st, hm]
    simp only [ingest_youtube_batch, hff]
  · intro items st item t hmem hpw hstored hf hw
    rw [ingest_batch_state hash now items st]
    exact ingest_results_writes_all hash now items st item t hmem hpw hstored hf hw

/-- C1 witness: on the five-item batch the theorem yields the blocked fatal
as the batch outcome, and item 4 — scheduled after the blocked detection —
still reaches the write stage. -/
theorem ingest_first_fatal_wins_writes_continue_witness :
    (c1Items.findSome? itemFatal = some "Transcript API blocked: 429 Too Many Requests" ∧
      (ingest_youtube_batch (fun t => t) "now" c1Items ⟨[], []⟩).1 =
        .fatalErr "Transcript API blocked: 429 Too Many Requests") ∧
    (c1Item "https://x/4" "v4" (.ok "t4") ∈ c1Items ∧
      (ingest_youtube_batch (fun t => t) "now" c1Items ⟨[], []⟩).2.events.any
        (eventWritesUrl "https://x/4") = true) := by
  have h := ingest_first_fatal_wins_writes_continue (fun t => t) "now"
  refine ⟨⟨by decide, h.1 c1Items ⟨[], []⟩ _ (by decide)⟩, ⟨by decide, ?_⟩⟩
  exact h.2.2 c1Items ⟨[], []⟩ (c1Item "https://x/4" "v4" (.ok "t4")) "t4"
    (by decide) (by decide) (by decide) (by decide) (by decide)

/-- C1 counterexample: as stated, the claim is false on the five-item batch —
the batch outcome is indeed the fatal condition, yet item 4, scheduled after
item 3's blocked detection, still reaches the write stage (its upsert call is
issued), because `gather(..., return_exceptions=True)` lets every task run to
completion. -/
theorem ingest_first_fatal_wins_writes_continue_counterexample :
    (ingest_youtube_batch (fun t => t) "now" c1Items ⟨[], []⟩).1 =
      .fatalErr "Transcript API blocked: 429 Too Many Requests" ∧
    (ingest_youtube_batch (fun t => t) "now" c1Items ⟨[], []⟩).2.events.any
      (eventWritesUrl "https://x/4") = true ∧
    (ingest_youtube_batch (fun t => t) "now" c1Items ⟨[], []⟩).2.events.any
      (eventWritesUrl "https://x/5") = true := by
  decide

/-- C7 (amended): the cleanup block runs on every exit path — success and
failure alike — and, when no close operation fails, performs all five steps
in order (summarizer close, dedup-store close, task cancellation, collector
pool shutdown, default-executor shutdown), raises nothing, leaves both owned
resources closed, preserves the batch outcome, and is idempotent at the
resource level; but only the final default-executor step is guarded, so a
failure in an earlier close operation propagates to the caller and skips the
remaining cleanup steps. -/
theorem cleanup_all_paths_guarded_tail_only :
    (∀ (body : BatchOutcome ⊕ String) (env : CleanupEnv) (r : Resources),
        (ingest_with_cleanup body env r).2.1 = (runCleanup env r).1 ∧
        (ingest_with_cleanup body env r).2.2 = (runCleanup env r).2.1) ∧
    (∀ (body : BatchOutcome ⊕ String) (env : CleanupEnv) (r : Resources),
        env.summarizerCloseFails = false → env.dbCloseFails = false →
        env.collectorShutdownFails = false →
        (runCleanup env r).1 = [.closeSummarizer, .closeDb, .cancelPendingTasks,
          .shutdownCollectorPool, .shutdownDefaultPool] ∧
        (runCleanup env r).2.2 = none ∧
        (runCleanup env r).2.1 = ⟨false, false⟩ ∧
        (ingest_with_cleanup body env r).1 = body) ∧
    (∀ (env : CleanupEnv) (r : Resources),
        (runCleanup env (runCleanup env r).2.1).2.1 = (runCleanup env r).2.1) := by
  refine ⟨?_, ?_, ?_⟩
  · intro body env r
    simp only [ingest_with_cleanup]
    cases hc : (runCleanup env r).2.2 <;> exact ⟨rfl, rfl⟩
  · intro body env r h1 h2 h3
    obtain ⟨a, b, c, d⟩ := env
    simp only at h1 h2 h3
    subst h1; subst h2; subst h3
    refine ⟨rfl, rfl, ?_, rfl⟩
    obtain ⟨x, y⟩ := r
    rfl
  · intro env r
    obtain ⟨a, b, c, d⟩ := env
    obtain ⟨x, y⟩ := r
    cases a <;> cases b <;> cases c <;> rfl

/-- C7 witness: with no close failure the cleanup performs all five steps and
hands the successful count through. -/
theorem cleanup_all_paths_guarded_tail_only_witness :
    ((⟨false, false, false, true⟩ : CleanupEnv).summarizerCloseFails = false ∧
      (⟨false, false, false, true⟩ : CleanupEnv).dbCloseFails = false ∧
      (⟨false, false, false, true⟩ : CleanupEnv).collectorShutdownFails = false) ∧
    (runCleanup ⟨false, false, false, true⟩ ⟨true, true⟩).1 =
      [.closeSummarizer, .closeDb, .cancelPendingTasks,
       .shutdownCollectorPool, .shutdownDefaultPool] ∧
    (ingest_with_cleanup (.inl (.count 3)) ⟨false, false, false, true⟩ ⟨true, true⟩).1 =
      .inl (.count 3) := by
  have h := cleanup_all_paths_guarded_tail_only
  have h2 := h.2.1 (.inl (.count 3)) ⟨false, false, false, true⟩ ⟨true, true⟩ rfl rfl rfl
  exact ⟨⟨rfl, rfl, rfl⟩, h2.1, h2.2.2.2⟩

/-- C7 counterexample: when the summarizer client's close raises, the cleanup
error replaces the batch's successful count at the caller, the dedup-store
connection is left open, and the remaining cleanup steps never run — the
claim that cleanup never raises even if an individual close fails is false. -/
theorem cleanup_all_paths_guarded_tail_only_counterexample :
    (ingest_with_cleanup (.inl (.count 3)) ⟨true, false, false, false⟩ ⟨true, true⟩).1 =
      .inr "summarizer close failed" ∧
    (ingest_with_cleanup (.inl (.count 3)) ⟨true, false, false, false⟩ ⟨true, true⟩).2.2.dedupConnOpen
      = true ∧
    CleanupStep.closeDb ∉
      (ingest_with_cleanup (.inl (.count 3)) ⟨true, false, false, false⟩ ⟨true, true⟩).2.1 := by
  decide

/-- C10: a worker budget of zero or a negative value still yields an
admission-gate capacity of `max(1, workers) = 1` — a valid semaphore bound of
at least one — and the batch still processes every item (one result per
item) and terminates rather than deadlocking or rejecting the input. -/
theorem worker_budget_floor (w : ℤ) (hw : w ≤ 0) :
    effectiveWorkers w = 1 ∧ 1 ≤ effectiveWorkers w ∧
    (∀ (hash : String → String) (now : String) (items : List ItemRun) (st : PipeState),
      (ingest_results hash now items st).1.length = items.length) := by
  refine ⟨?_, le_max_left _ _, fun hash now items st => ingest_results_length hash now items st⟩
  unfold effectiveWorkers
  exact max_eq_left (le_trans hw (by norm_num))

/-- C10 witness: `workers = -3` gives gate capacity 1 and the five-item batch
still yields five results. -/
theorem worker_budget_floor_witness :
    ((-3 : ℤ) ≤ 0 ∧ effectiveWorkers (-3) = 1) ∧
    (ingest_results (fun t => t) "now" c1Items ⟨[], []⟩).1.length = c1Items.length := by
  have h := worker_budget_floor (-3) (by norm_num)
  exact ⟨⟨by norm_num, h.1⟩, h.2.2 (fun t => t) "now" c1Items ⟨[], []⟩⟩

end Nexus
